import Mathlib

/-!
Verification of the reference-translation and consolidation engine of
`fsspec_reference_maker/hdf.py` (classes `SingleHdf5ToZarr` and
`MultiZarrToZarr`).

The Python reference store is an insertion-ordered dict from string keys to
values that are either raw bytes, JSON strings, or 3-element lists
`[url, offset, size]`.  We embed it as an association list over a structured
key type: a store key is either a metadata-document key
(`<path>/<docname>`, e.g. `x/.zarray`) or a chunk key
(`<path>/<c0>.<c1>...<cN>`).  The string rendering of a key is also defined
(`RefKey.render`) and is injective on the key forms used by the program, so
the structured embedding is faithful to the flat string-keyed dict.
-/

set_option linter.unusedVariables false
set_option linter.unusedSectionVars false

namespace HdfRefs

/-- A reference-store key: either a metadata document of a node
(`path/doc`, e.g. `v/.zarray`) or one chunk of an array
(`path/c0.c1...cN`). -/
inductive RefKey where
  | meta (path : String) (doc : String)
  | chunk (path : String) (coord : List Nat)
  deriving DecidableEq, Repr

/-- A reference-store value: a remote reference `[url, offset, size]`,
raw bytes (Python `bytes`), or a JSON string (Python `str`). -/
inductive RefValue where
  | ref (url : String) (off : Nat) (size : Nat)
  | bytes (data : List Nat)
  | str (s : String)
  deriving DecidableEq, Repr

/-- One reference store: an insertion-ordered mapping, embedded as an
association list (Python `dict`). -/
abbrev Store := List (RefKey × RefValue)

/-- The hierarchy path of a key (the part before the final `/`;
`os.path.split(k)[0]` in the source). -/
def keyPath : RefKey → String
  | .meta p _ => p
  | .chunk p _ => p

/-- Whether a key is a chunk key of the array at path `p`. -/
def isChunkOf (p : String) : RefKey → Bool
  | .chunk q _ => q == p
  | .meta _ _ => false

/-! ## Python-dict primitives

`dinsert` is `d[k] = v`: it replaces the value at the first occurrence of
`k`, keeping its position, and appends a fresh key at the end.  `dupdate`
is `d.update(new)`, inserting the entries of `new` in order.  `dlookup`
is `d[k]`/`d.get(k)`.  On stores whose keys are distinct (the invariant
Python dicts maintain) these model the dict exactly. -/

section Dict

variable {κ : Type _} {ν : Type _} [DecidableEq κ]

/-- Association-list lookup (first match). -/
def dlookup (k : κ) : List (κ × ν) → Option ν
  | [] => none
  | (k', v) :: rest => if k' = k then some v else dlookup k rest

/-- Python `d[k] = v`: replace in place or append. -/
def dinsert (k : κ) (v : ν) : List (κ × ν) → List (κ × ν)
  | [] => [(k, v)]
  | (k', v') :: rest => if k' = k then (k, v) :: rest else (k', v') :: dinsert k v rest

/-- Python `d.update(new)`: insert the entries of `new` in order. -/
def dupdate (d new : List (κ × ν)) : List (κ × ν) :=
  new.foldl (fun acc kv => dinsert kv.1 kv.2 acc) d

/-- The key sequence of a store. -/
def dkeys (d : List (κ × ν)) : List κ := d.map Prod.fst

@[simp] theorem dkeys_nil : dkeys ([] : List (κ × ν)) = [] := rfl

@[simp] theorem dkeys_cons (kv : κ × ν) (d : List (κ × ν)) :
    dkeys (kv :: d) = kv.1 :: dkeys d := rfl

@[simp] theorem dkeys_append (a b : List (κ × ν)) :
    dkeys (a ++ b) = dkeys a ++ dkeys b := by
  simp [dkeys]

@[simp] theorem dlookup_nil (k : κ) : dlookup (ν := ν) k [] = none := rfl

@[simp] theorem dlookup_cons (k k' : κ) (v : ν) (rest : List (κ × ν)) :
    dlookup k ((k', v) :: rest) = if k' = k then some v else dlookup k rest := rfl

theorem dlookup_eq_none_of_not_mem {k : κ} {d : List (κ × ν)} (h : k ∉ dkeys d) :
    dlookup k d = none := by
  induction d with
  | nil => rfl
  | cons kv rest ih =>
    obtain ⟨k', v⟩ := kv
    rw [dkeys_cons, List.mem_cons] at h
    push_neg at h
    have hne : k' ≠ k := fun hh => h.1 hh.symm
    simp [dlookup, hne, ih h.2]

theorem mem_dkeys_of_dlookup {k : κ} {v : ν} {d : List (κ × ν)}
    (h : dlookup k d = some v) : k ∈ dkeys d := by
  induction d with
  | nil => simp [dlookup] at h
  | cons kv rest ih =>
    obtain ⟨k', v'⟩ := kv
    rw [dkeys_cons, List.mem_cons]
    by_cases hk : k' = k
    · exact Or.inl hk.symm
    · rw [dlookup_cons, if_neg hk] at h
      exact Or.inr (ih h)

theorem dlookup_eq_of_mem {k : κ} {v : ν} {d : List (κ × ν)}
    (hnd : (dkeys d).Nodup) (h : (k, v) ∈ d) : dlookup k d = some v := by
  induction d with
  | nil => simp at h
  | cons kv rest ih =>
    obtain ⟨k', v'⟩ := kv
    rw [dkeys_cons, List.nodup_cons] at hnd
    rcases List.mem_cons.mp h with h1 | h2
    · rw [Prod.mk.injEq] at h1
      obtain ⟨rfl, rfl⟩ := h1
      simp [dlookup]
    · have hne : k' ≠ k := by
        rintro rfl
        exact hnd.1 (List.mem_map.2 ⟨_, h2, rfl⟩)
      simp [dlookup, hne, ih hnd.2 h2]

theorem dlookup_dinsert (k k' : κ) (v : ν) (d : List (κ × ν)) :
    dlookup k (dinsert k' v d) = if k' = k then some v else dlookup k d := by
  induction d with
  | nil => simp [dinsert, dlookup]
  | cons kv rest ih =>
    obtain ⟨k₀, v₀⟩ := kv
    by_cases h0 : k₀ = k'
    · subst h0
      by_cases hk : k₀ = k <;> simp [dinsert, dlookup, hk]
    · by_cases hk : k₀ = k
      · subst hk
        have hne : k' ≠ k₀ := fun h => h0 h.symm
        simp [dinsert, h0, dlookup, hne]
      · simp [dinsert, h0, dlookup, hk, ih]

theorem dkeys_dinsert_mem {k : κ} {v : ν} {d : List (κ × ν)} (h : k ∈ dkeys d) :
    dkeys (dinsert k v d) = dkeys d := by
  induction d with
  | nil => simp at h
  | cons kv rest ih =>
    obtain ⟨k₀, v₀⟩ := kv
    by_cases h0 : k₀ = k
    · simp [dinsert, h0]
    · rw [dkeys_cons, List.mem_cons] at h
      rcases h with h | h
      · exact absurd h.symm h0
      · simp [dinsert, h0, ih h]

theorem dinsert_not_mem {k : κ} {v : ν} {d : List (κ × ν)} (h : k ∉ dkeys d) :
    dinsert k v d = d ++ [(k, v)] := by
  induction d with
  | nil => rfl
  | cons kv rest ih =>
    obtain ⟨k₀, v₀⟩ := kv
    rw [dkeys_cons, List.mem_cons] at h
    push_neg at h
    have hne : k₀ ≠ k := fun hh => h.1 hh.symm
    simp [dinsert, hne, ih h.2]

theorem dkeys_dinsert_subset {k : κ} {v : ν} {d : List (κ × ν)} {x : κ}
    (hx : x ∈ dkeys (dinsert k v d)) : x ∈ dkeys d ∨ x = k := by
  by_cases hm : k ∈ dkeys d
  · rw [dkeys_dinsert_mem hm] at hx
    exact Or.inl hx
  · rw [dinsert_not_mem hm, dkeys_append] at hx
    rcases List.mem_append.mp hx with h | h
    · exact Or.inl h
    · exact Or.inr (by simpa using h)

theorem dkeys_nodup_dinsert {k : κ} {v : ν} {d : List (κ × ν)}
    (h : (dkeys d).Nodup) : (dkeys (dinsert k v d)).Nodup := by
  by_cases hm : k ∈ dkeys d
  · rw [dkeys_dinsert_mem hm]; exact h
  · rw [dinsert_not_mem hm, dkeys_append]
    rw [List.nodup_append]
    refine ⟨h, by simp, ?_⟩
    intro a ha hb
    have hak : a = k := by simpa using hb
    exact hm (hak ▸ ha)

theorem mem_dupdate_keys {d new : List (κ × ν)} {x : κ}
    (hx : x ∈ dkeys (dupdate d new)) : x ∈ dkeys d ∨ x ∈ dkeys new := by
  induction new generalizing d with
  | nil => exact Or.inl hx
  | cons kv rest ih =>
    obtain ⟨k, v⟩ := kv
    simp only [dupdate, List.foldl_cons] at hx
    rcases ih (d := dinsert k v d) hx with h | h
    · rcases dkeys_dinsert_subset h with h' | h'
      · exact Or.inl h'
      · exact Or.inr (by simp [h'])
    · exact Or.inr (by rw [dkeys_cons, List.mem_cons]; exact Or.inr h)

theorem dupdate_fresh {d new : List (κ × ν)}
    (hfresh : ∀ x ∈ dkeys new, x ∉ dkeys d) (hnd : (dkeys new).Nodup) :
    dupdate d new = d ++ new := by
  induction new generalizing d with
  | nil => simp [dupdate]
  | cons kv rest ih =>
    obtain ⟨k, v⟩ := kv
    rw [dkeys_cons, List.nodup_cons] at hnd
    have hk : k ∉ dkeys d := hfresh k (by simp)
    simp only [dupdate, List.foldl_cons]
    rw [show dinsert k v d = d ++ [(k, v)] from dinsert_not_mem hk]
    have hrest : dupdate (d ++ [(k, v)]) rest = (d ++ [(k, v)]) ++ rest := by
      apply ih _ hnd.2
      intro x hx
      rw [dkeys_append, List.mem_append]
      push_neg
      refine ⟨hfresh x (by rw [dkeys_cons, List.mem_cons]; exact Or.inr hx), ?_⟩
      intro hxk
      have hxeq : x = k := by simpa using hxk
      exact hnd.1 (hxeq ▸ hx)
    rw [dupdate] at hrest
    rw [hrest, List.append_assoc]
    rfl

theorem dlookup_dupdate (k : κ) (d new : List (κ × ν)) (hnd : (dkeys new).Nodup) :
    dlookup k (dupdate d new) =
      match dlookup k new with
      | some v => some v
      | none => dlookup k d := by
  induction new generalizing d with
  | nil => simp [dupdate, dlookup]
  | cons kv rest ih =>
    obtain ⟨k', v'⟩ := kv
    rw [dkeys_cons, List.nodup_cons] at hnd
    simp only [dupdate, List.foldl_cons]
    have hih := ih (d := dinsert k' v' d) hnd.2
    rw [dupdate] at hih
    rw [hih]
    by_cases hk : k' = k
    · subst hk
      have hnone : dlookup k' rest = none :=
        dlookup_eq_none_of_not_mem hnd.1
      simp [dlookup, hnone, dlookup_dinsert]
    · simp [dlookup, hk, dlookup_dinsert]

theorem mem_of_dlookup {k : κ} {v : ν} {d : List (κ × ν)}
    (h : dlookup k d = some v) : (k, v) ∈ d := by
  induction d with
  | nil => simp [dlookup] at h
  | cons kv rest ih =>
    obtain ⟨k', v'⟩ := kv
    by_cases hk : k' = k
    · subst hk
      rw [dlookup_cons, if_pos rfl] at h
      injection h with h
      subst h
      exact List.mem_cons_self _ _
    · rw [dlookup_cons, if_neg hk] at h
      exact List.mem_cons_of_mem _ (ih h)

theorem mem_dkeys_dinsert_old {k k0 : κ} {v0 : ν} {d : List (κ × ν)}
    (h : k ∈ dkeys d) : k ∈ dkeys (dinsert k0 v0 d) := by
  by_cases hm : k0 ∈ dkeys d
  · rw [dkeys_dinsert_mem hm]; exact h
  · rw [dinsert_not_mem hm, dkeys_append]
    exact List.mem_append_left _ h

theorem mem_dkeys_dinsert_self (k : κ) (v : ν) (d : List (κ × ν)) :
    k ∈ dkeys (dinsert k v d) := by
  by_cases hm : k ∈ dkeys d
  · rw [dkeys_dinsert_mem hm]; exact hm
  · rw [dinsert_not_mem hm, dkeys_append]
    exact List.mem_append_right _ (by simp)

theorem mem_dkeys_dupdate_left {k : κ} {d new : List (κ × ν)}
    (h : k ∈ dkeys d) : k ∈ dkeys (dupdate d new) := by
  induction new generalizing d with
  | nil => exact h
  | cons kv rest ih =>
    simp only [dupdate, List.foldl_cons]
    have hih := ih (d := dinsert kv.1 kv.2 d) (mem_dkeys_dinsert_old h)
    rw [dupdate] at hih
    exact hih

theorem mem_dkeys_dupdate_right {k : κ} {d new : List (κ × ν)}
    (h : k ∈ dkeys new) : k ∈ dkeys (dupdate d new) := by
  induction new generalizing d with
  | nil => simp at h
  | cons kv rest ih =>
    simp only [dupdate, List.foldl_cons]
    rw [dkeys_cons, List.mem_cons] at h
    rcases h with h | h
    · have hself : k ∈ dkeys (dinsert kv.1 kv.2 d) := h ▸ mem_dkeys_dinsert_self _ _ _
      have hgoal := @mem_dkeys_dupdate_left _ _ _ k (dinsert kv.1 kv.2 d) rest hself
      rw [dupdate] at hgoal
      exact hgoal
    · have hih := ih (d := dinsert kv.1 kv.2 d) h
      rw [dupdate] at hih
      exact hih

theorem dupdate_append (d a b : List (κ × ν)) :
    dupdate d (a ++ b) = dupdate (dupdate d a) b := by
  simp [dupdate, List.foldl_append]

theorem dlookup_filter (p : κ → Bool) (k : κ) (d : List (κ × ν)) (h : p k = true) :
    dlookup k (d.filter (fun kv => p kv.1)) = dlookup k d := by
  induction d with
  | nil => rfl
  | cons kv rest ih =>
    obtain ⟨k', v⟩ := kv
    rw [List.filter_cons]
    by_cases hk : k' = k
    · subst hk
      simp only [h, if_true, dlookup_cons, if_pos rfl]
    · by_cases hp : p k'
      · simp only [hp, if_true, dlookup_cons, if_neg hk]
        exact ih
      · simp only [hp, Bool.false_eq_true, if_false, dlookup_cons, if_neg hk] at *
        exact ih

theorem mem_dkeys_filter {p : κ × ν → Bool} {k : κ} {d : List (κ × ν)}
    (h : k ∈ dkeys (d.filter p)) : k ∈ dkeys d := by
  rcases List.mem_map.1 h with ⟨kv, hkv, rfl⟩
  exact List.mem_map.2 ⟨kv, List.mem_of_mem_filter hkv, rfl⟩

theorem dkeys_filter_nodup (p : κ × ν → Bool) {d : List (κ × ν)}
    (h : (dkeys d).Nodup) : (dkeys (d.filter p)).Nodup :=
  ((d.filter_sublist).map Prod.fst).nodup h

theorem entry_of_mem_dkeys_filter {p : κ × ν → Bool} {k : κ} {d : List (κ × ν)}
    (h : k ∈ dkeys (d.filter p)) : ∃ v, (k, v) ∈ d ∧ p (k, v) = true := by
  rcases List.mem_map.1 h with ⟨kv, hkv, rfl⟩
  exact ⟨kv.2, List.mem_of_mem_filter hkv, by
    have := List.of_mem_filter hkv
    simpa using this⟩

theorem foldl_dinsert_map (f : κ × ν → ν) :
    ∀ (m acc : List (κ × ν)), (dkeys m).Nodup →
      (∀ k ∈ dkeys m, k ∉ dkeys acc) →
      m.foldl (fun out kv => dinsert kv.1 (f kv) out) acc =
        acc ++ m.map (fun kv => (kv.1, f kv)) := by
  intro m
  induction m with
  | nil => intro acc _ _; simp
  | cons kv rest ih =>
    intro acc hnd hfr
    rw [dkeys_cons, List.nodup_cons] at hnd
    rw [List.foldl_cons, List.map_cons]
    rw [dinsert_not_mem (hfr kv.1 (by simp))]
    rw [ih (acc ++ [(kv.1, f kv)]) hnd.2 ?_]
    · rw [List.append_assoc]
      rfl
    · intro k hk
      rw [dkeys_append, List.mem_append]
      push_neg
      refine ⟨hfr k (by rw [dkeys_cons, List.mem_cons]; exact Or.inr hk), ?_⟩
      intro hk1
      have : k = kv.1 := by simpa using hk1
      exact hnd.1 (this ▸ hk)

theorem dkeys_nodup_dupdate {d new : List (κ × ν)} (h : (dkeys d).Nodup) :
    (dkeys (dupdate d new)).Nodup := by
  induction new generalizing d with
  | nil => exact h
  | cons kv rest ih =>
    simp only [dupdate, List.foldl_cons]
    have hih := ih (d := dinsert kv.1 kv.2 d) (dkeys_nodup_dinsert h)
    rw [dupdate] at hih
    exact hih

theorem dlookup_dupdate_not_mem {k : κ} {d new : List (κ × ν)}
    (h : k ∉ dkeys new) :
    dlookup k (dupdate d new) = dlookup k d := by
  induction new generalizing d with
  | nil => rfl
  | cons kv rest ih =>
    obtain ⟨k', v'⟩ := kv
    rw [dkeys_cons, List.mem_cons] at h
    push_neg at h
    simp only [dupdate, List.foldl_cons]
    have hih := ih (d := dinsert k' v' d) h.2
    rw [dupdate] at hih
    have hne : k' ≠ k := fun hh => h.1 hh.symm
    rw [hih, dlookup_dinsert, if_neg hne]

end Dict

/-! ## Inliner (`SingleHdf5ToZarr._do_inline`)

The source file is modelled as its byte sequence (`List Nat`, each < 256).
`readRange` is `seek(off); read(len)`.  `encodeB64` is Python's
`base64.b64encode` on bytes (output is the ASCII byte sequence of the
standard alphabet with `=` = 61 padding); `decodeB64` is the standard
decoder used at consumption time (the spec's "base64-decoding"). -/

/-- `f.seek(off); f.read(len)` on a file with byte content `file`. -/
def readRange (file : List Nat) (off len : Nat) : List Nat :=
  (file.drop off).take len

/-- The standard base64 alphabet as ASCII byte values
(`A`-`Z`, `a`-`z`, `0`-`9`, `+`, `/`). -/
def b64table : List Nat :=
  (List.range 26).map (65 + ·) ++ (List.range 26).map (97 + ·) ++
    (List.range 10).map (48 + ·) ++ [43, 47]

/-- Sextet value to base64 alphabet byte. -/
def enc6 (n : Nat) : Nat := b64table.getD n 0

/-- Base64 alphabet byte back to its sextet value. -/
def dec6 (c : Nat) : Nat := b64table.indexOf c

/-- `base64.b64encode`: bytes to base64-alphabet bytes, `=` (61) padded. -/
def encodeB64 : List Nat → List Nat
  | [] => []
  | [b0] => [enc6 (b0 / 4), enc6 (b0 % 4 * 16), 61, 61]
  | [b0, b1] => [enc6 (b0 / 4), enc6 (b0 % 4 * 16 + b1 / 16), enc6 (b1 % 16 * 4), 61]
  | b0 :: b1 :: b2 :: rest =>
      enc6 (b0 / 4) :: enc6 (b0 % 4 * 16 + b1 / 16) ::
        enc6 (b1 % 16 * 4 + b2 / 64) :: enc6 (b2 % 64) :: encodeB64 rest

/-- Standard base64 decoding (padding `=` = 61 only at the end). -/
def decodeB64 : List Nat → List Nat
  | x :: y :: z :: w :: rest =>
      if z = 61 then [dec6 x * 4 + dec6 y / 16]
      else if w = 61 then [dec6 x * 4 + dec6 y / 16, dec6 y % 16 * 16 + dec6 z / 4]
      else (dec6 x * 4 + dec6 y / 16) :: (dec6 y % 16 * 16 + dec6 z / 4) ::
        (dec6 z % 4 * 64 + dec6 w) :: decodeB64 rest
  | _ => []

/-- `data.decode('ascii')` succeeds exactly when all bytes are < 128. -/
def isAscii (data : List Nat) : Bool := data.all (· < 128)

/-- The fixed literal prefix tag `b"base64:"`. -/
def b64tag : List Nat := [98, 97, 115, 101, 54, 52, 58]

/-- The inline value stored for a short chunk: the raw bytes when they
decode as ASCII, otherwise `b"base64:" + base64.b64encode(data)`
(`hdf.py` lines 103-108). -/
def encodeInline (data : List Nat) : List Nat :=
  if isAscii data then data else b64tag ++ encodeB64 data

/-- Consumption-time decoding of an inline value: strip the tag and
base64-decode when the tag is present, else the bytes are the ASCII text
itself. -/
def decodeInline (v : List Nat) : List Nat :=
  if b64tag.isPrefixOf v then decodeB64 (v.drop 7) else v

/-- The per-entry action of `_do_inline`: a remote reference whose size is
strictly below the threshold is replaced by the inline value of the byte
range it points at; every other value is left untouched. -/
def inlineVal (file : List Nat) (threshold : Nat) : RefValue → RefValue
  | .ref u o s =>
      if s < threshold then .bytes (encodeInline (readRange file o s))
      else .ref u o s
  | v => v

/-- `SingleHdf5ToZarr._do_inline(threshold)`: iterate over a copy of the
store and overwrite short remote references in place. -/
def do_inline (file : List Nat) (threshold : Nat) (st : Store) : Store :=
  st.map (fun kv => (kv.1, inlineVal file threshold kv.2))

theorem dec6_enc6_fin : ∀ n : Fin 64, dec6 (enc6 n.val) = n.val := by decide

theorem dec6_enc6 {n : Nat} (h : n < 64) : dec6 (enc6 n) = n :=
  dec6_enc6_fin ⟨n, h⟩

theorem enc6_ne_61_fin : ∀ n : Fin 64, enc6 n.val ≠ 61 := by decide

theorem enc6_ne_61 {n : Nat} (h : n < 64) : enc6 n ≠ 61 :=
  enc6_ne_61_fin ⟨n, h⟩

/-- Base64 round-trip on byte sequences. -/
theorem decodeB64_encodeB64 :
    ∀ l : List Nat, (∀ b ∈ l, b < 256) → decodeB64 (encodeB64 l) = l := by
  intro l
  induction l using encodeB64.induct with
  | case1 =>
    intro _
    rfl
  | case2 b0 =>
    intro h
    have hb0 : b0 < 256 := h b0 (by simp)
    simp only [encodeB64, decodeB64, eq_self_iff_true, if_true]
    rw [dec6_enc6 (show b0 / 4 < 64 by omega),
      dec6_enc6 (show b0 % 4 * 16 < 64 by omega)]
    simp only [List.cons.injEq, and_true]
    omega
  | case3 b0 b1 =>
    intro h
    have hb0 : b0 < 256 := h b0 (by simp)
    have hb1 : b1 < 256 := h b1 (by simp)
    have hz : enc6 (b1 % 16 * 4) ≠ 61 := enc6_ne_61 (by omega)
    simp only [encodeB64, decodeB64, if_neg hz, eq_self_iff_true, if_true]
    rw [dec6_enc6 (show b0 / 4 < 64 by omega),
      dec6_enc6 (show b0 % 4 * 16 + b1 / 16 < 64 by omega),
      dec6_enc6 (show b1 % 16 * 4 < 64 by omega)]
    simp only [List.cons.injEq, and_true]
    omega
  | case4 b0 b1 b2 rest ih =>
    intro h
    have hb0 : b0 < 256 := h b0 (by simp)
    have hb1 : b1 < 256 := h b1 (by simp)
    have hb2 : b2 < 256 := h b2 (by simp)
    have hrest : ∀ b ∈ rest, b < 256 := fun b hb => h b (by simp [hb])
    have hz : enc6 (b1 % 16 * 4 + b2 / 64) ≠ 61 := enc6_ne_61 (by omega)
    have hw : enc6 (b2 % 64) ≠ 61 := enc6_ne_61 (by omega)
    simp only [encodeB64, decodeB64, if_neg hz, if_neg hw]
    rw [dec6_enc6 (show b0 / 4 < 64 by omega),
      dec6_enc6 (show b0 % 4 * 16 + b1 / 16 < 64 by omega),
      dec6_enc6 (show b1 % 16 * 4 + b2 / 64 < 64 by omega),
      dec6_enc6 (show b2 % 64 < 64 by omega), ih hrest]
    simp only [List.cons.injEq, and_true]
    omega

theorem isPrefixOf_append_self (p r : List Nat) : p.isPrefixOf (p ++ r) = true := by
  induction p with
  | nil => simp [List.isPrefixOf]
  | cons a as ih => simp [List.isPrefixOf, ih]

theorem isPrefixOf_iff_exists (p : List Nat) :
    ∀ l : List Nat, p.isPrefixOf l = true ↔ ∃ r, l = p ++ r := by
  induction p with
  | nil =>
    intro l
    simp [List.isPrefixOf]
  | cons a as ih =>
    intro l
    cases l with
    | nil => simp [List.isPrefixOf]
    | cons b bs =>
      simp only [List.isPrefixOf, Bool.and_eq_true, beq_iff_eq, ih bs]
      constructor
      · rintro ⟨rfl, r, rfl⟩
        exact ⟨r, rfl⟩
      · rintro ⟨r, hr⟩
        rw [List.cons_append] at hr
        injection hr with h1 h2
        exact ⟨h1.symm, r, h2⟩

/-- Inline round-trip: unless the original bytes are ASCII text that
itself begins with the literal tag, decoding the stored inline value
recovers the original bytes. -/
theorem decodeInline_encodeInline (d : List Nat) (hb : ∀ b ∈ d, b < 256)
    (hn : ¬(isAscii d = true ∧ b64tag.isPrefixOf d = true)) :
    decodeInline (encodeInline d) = d := by
  by_cases ha : isAscii d = true
  · have htag : b64tag.isPrefixOf d = false := by
      cases hpt : b64tag.isPrefixOf d
      · rfl
      · exact absurd ⟨ha, hpt⟩ hn
    simp [encodeInline, decodeInline, ha, htag]
  · have ha' : isAscii d = false := by
      cases hq : isAscii d
      · rfl
      · exact absurd hq ha
    simp only [encodeInline, ha', Bool.false_eq_true, if_false]
    have hpre : b64tag.isPrefixOf (b64tag ++ encodeB64 d) = true :=
      isPrefixOf_append_self _ _
    simp only [decodeInline, hpre, if_pos]
    rw [show (7 : Nat) = b64tag.length from rfl, List.drop_left]
    exact decodeB64_encodeB64 d hb

theorem isPrefixOf_append_self_char (p r : List Char) : p.isPrefixOf (p ++ r) = true := by
  induction p with
  | nil => simp [List.isPrefixOf]
  | cons a as ih => simp [List.isPrefixOf, ih]

theorem inlineVal_idem (file : List Nat) (t : Nat) (v : RefValue) :
    inlineVal file t (inlineVal file t v) = inlineVal file t v := by
  cases v with
  | ref u o s =>
    by_cases hs : s < t <;> simp [inlineVal, hs]
  | bytes data => rfl
  | str s => rfl

theorem dlookup_do_inline (file : List Nat) (t : Nat) (k : RefKey) (st : Store) :
    dlookup k (do_inline file t st) = (dlookup k st).map (inlineVal file t) := by
  induction st with
  | nil => rfl
  | cons kv rest ih =>
    obtain ⟨k', v⟩ := kv
    by_cases hk : k' = k
    · simp [do_inline, dlookup, hk]
    · simp only [do_inline, List.map_cons, dlookup_cons, if_neg hk]
      simpa [do_inline] using ih

/-! ## Single-source translator (`SingleHdf5ToZarr._translator` /
`_storage_info` / `_get_array_dims`)

An HDF5 dataset is modelled by the surface `h5py` exposes to the code:
layout, filter flags, compression name, shape/chunks, the chunk locator
results (`get_offset`/`get_storage_size`/`get_chunk_info`), the
dimension-scale linkage, and the h5 object name.  The opaque metadata
documents written by the external `zarr` library (`.zarray`, `.zattrs`,
`.zgroup` contents) are passed in as an abstract store `mdocs`. -/

/-- HDF5 dataset storage layout as tested by
`get_create_plist().get_layout()`. -/
inductive Layout where
  | compact
  | contiguous
  | chunked
  deriving DecidableEq, Repr

/-- The `h5py` surface of one HDF5 dataset used by the translator. -/
structure HDS where
  /-- `h5obj.name`, starts with `/`. -/
  name : String
  /-- The zarr array path (`name` without the leading `/`). -/
  zpath : String
  layout : Layout
  /-- `h5obj.scaleoffset` is truthy. -/
  scaleoffset : Bool
  fletcher32 : Bool
  shuffle : Bool
  /-- `h5obj.compression`: one of `none`, `"gzip"`, `"szip"`, `"lzf"`. -/
  compression : Option String
  shape : Option (List Nat)
  chunks : Option (List Nat)
  /-- `dsid.get_offset()`. -/
  offset : Option Nat
  /-- `dsid.get_storage_size()`. -/
  storageSize : Nat
  /-- `dsid.get_chunk_info(i)` results: `(chunk_offset, byte_offset, size)`. -/
  rawChunks : List (List Nat × Nat × Nat)
  /-- `h5py.h5ds.is_scale(h5obj.id)`. -/
  isScale : Bool
  /-- Per axis, the h5 names of the attached dimension scales
  (`dset.dims[n]`). -/
  dimScales : List (List String)
  deriving DecidableEq, Repr

/-- Array rank, `len(dset.shape)`. -/
def dsRank (ds : HDS) : Nat :=
  match ds.shape with
  | some sh => sh.length
  | none => 0

/-- `SingleHdf5ToZarr._storage_info`: chunk coordinate to
(byte offset, byte length), as an insertion-ordered dict. -/
def storageInfo (ds : HDS) : List (List Nat × (Nat × Nat)) :=
  match ds.shape with
  | none => []
  | some sh =>
    match ds.chunks with
    | none =>
      match ds.offset with
      | none => []
      | some o =>
        [(List.replicate (if sh.length = 0 then 1 else sh.length) 0,
          (o, ds.storageSize))]
    | some cs =>
      ds.rawChunks.foldl
        (fun st rc => dinsert (List.zipWith (· / ·) rc.1 cs) (rc.2.1, rc.2.2) st) []

/-- The filter rejection test of `hdf.py` lines 160-161:
`scaleoffset or fletcher32 or shuffle or compression in ('szip', 'lzf')`. -/
def filtersBad (ds : HDS) : Bool :=
  ds.scaleoffset || ds.fletcher32 || ds.shuffle ||
    ds.compression == some "szip" || ds.compression == some "lzf"

/-- Body of the loop of `_get_array_dims`: walk the axes, appending the
attached scale's path (minus the leading `/`) when exactly one scale is
linked, the dataset's own path when the dataset is itself a scale, raising
when several scales are linked, and appending nothing for a bare axis. -/
def gadAux (isSc : Bool) (own : String) : List (List String) → Except String (List String)
  | [] => .ok []
  | s :: rest =>
    if s.length = 1 then
      (gadAux isSc own rest).map (fun t => (s.headD "").drop 1 :: t)
    else if isSc then
      (gadAux isSc own rest).map (fun t => own.drop 1 :: t)
    else if s.length > 1 then
      .error (own ++ ": multiple dimension scales attached to a dimension")
    else
      gadAux isSc own rest

/-- `SingleHdf5ToZarr._get_array_dims`. -/
def getArrayDims (ds : HDS) : Except String (List String) :=
  if dsRank ds = 0 then .ok []
  else gadAux ds.isScale ds.name ds.dimScales

/-- The dataset branch of `SingleHdf5ToZarr._translator`.  `mdocs` stands
for the metadata documents written into the store by the external `zarr`
library (`create_dataset` and attribute transfer); `store` is `self.store`
before the visit.  Note the compact-layout branch (`hdf.py` lines
154-158): the source constructs a `RuntimeError` but never raises it and
returns, so the dataset is silently skipped and the store left unchanged. -/
def translatorDataset (uri : String) (xr : Bool) (ds : HDS) (mdocs : Store)
    (store : Store) : Except String Store :=
  if ds.layout = Layout.compact then
    .ok store
  else if filtersBad ds then
    .error (ds.name ++ " uses unsupported HDF5 filters")
  else
    let cinfo := storageInfo ds
    if xr && ds.isScale && cinfo.isEmpty then .ok store
    else
      let store1 := dupdate store mdocs
      match (if xr then (getArrayDims ds).map (fun _ => ()) else .ok ()) with
      | .error e => .error e
      | .ok _ =>
        .ok (dupdate store1
          (cinfo.map (fun p => (RefKey.chunk ds.zpath p.1, RefValue.ref uri p.2.1 p.2.2))))

/-! ## Multi-source consolidation (`MultiZarrToZarr`) -/

/-- `set(ds.dims) - set(ds0.dims)`: merged dimensions absent from the
representative source, in merged order. -/
def extraDimsOf (full rep : List (String × Nat)) : List String :=
  (full.filter (fun kv => (dlookup kv.1 rep).isNone)).map Prod.fst

/-- The generator of `hdf.py` line 430: for every merged dimension `k` of
extent `v`, evaluate `v / ds0.dims[k] == len(mappers)`.  A dimension
missing from the representative map raises `KeyError`; extent zero raises
`ZeroDivisionError`; the float comparison is modelled exactly as
`v = n * d`. -/
def concatTest (rep : List (String × Nat)) (n : Nat) :
    List (String × Nat) → Except String (List String)
  | [] => .ok []
  | (k, v) :: rest =>
    match dlookup k rep with
    | none => .error ("KeyError: " ++ k)
    | some d =>
      if d = 0 then .error "ZeroDivisionError"
      else (concatTest rep n rest).map (fun t => if v = n * d then k :: t else t)

/-- `MultiZarrToZarr._determine_dims` classification: given the merged
dimension/extent map, the representative source's map and the source
count, compute (extra, concatenated, shared). -/
def determineDims (full rep : List (String × Nat)) (n : Nat) :
    Except String (List String × List String × List String) :=
  let extra := extraDimsOf full rep
  (concatTest rep n full).map (fun concat =>
    (extra, concat,
      (full.map Prod.fst).filter (fun k => !(extra.elem k) && !(concat.elem k))))

/-- The metadata documents skipped by the variable loop of
`_build_output` (`part in ['.zgroup', '.zarray', '.zattrs']`). -/
def skipDoc : RefKey → Bool
  | .meta _ d => d == ".zgroup" || d == ".zarray" || d == ".zattrs"
  | .chunk _ _ => false

/-- Key rewriting `out[f"{start}/{i}.{part}"] = v`: the source index is
prepended as an extra leading chunk coordinate component. -/
def rewriteKey (i : Nat) : RefKey → RefKey
  | .chunk p c => .chunk p (i :: c)
  | .meta p d => .meta p (Nat.repr i ++ "." ++ d)

/-- Join rendered coordinates with `.`. -/
def joinDotChars : List String → List Char
  | [] => []
  | [s] => s.toList
  | s :: rest => s.toList ++ '.' :: joinDotChars rest

/-- The textual chunk-coordinate part of a chunk key. -/
def renderCoord (c : List Nat) : List Char := joinDotChars (c.map Nat.repr)

/-- The flat string key of the Python dict, as a character list. -/
def render : RefKey → List Char
  | .meta p d => p.toList ++ '/' :: d.toList
  | .chunk p c => p.toList ++ '/' :: renderCoord c

/-- `k.startswith(dim)` on the flat string key. -/
def keyStarts (pre : String) (k : RefKey) : Bool :=
  pre.toList.isPrefixOf (render k)

/-- `{k: v for k, v in fss[0].references.items() if k.startswith(dim)}`. -/
def filterStarts (d : String) (st : Store) : Store :=
  st.filter (fun kv => keyStarts d kv.1)

/-- The shared-dimension loop of `_build_output` (lines 391-393): for each
shared dimension, copy the matching entries of the first source's store. -/
def sameDimsStep (fs0 : Store) (sameDims : List String) (out : Store) : Store :=
  sameDims.foldl (fun acc d => dupdate acc (filterStarts d fs0)) out

/-- The extra/concatenated-dimension loop of `_build_output` (lines
388-390): `z[dim][:] = ds[dim].values` writes the derived coordinate
chunks into the output store; `coordData d` stands for the entries the
external zarr write produces for dimension `d`. -/
def ecStep (coordData : String → Store) (extraConcat : List String) (seed : Store) : Store :=
  extraConcat.foldl (fun acc d => dupdate acc (coordData d)) seed

/-- The selection test of the variable loop: `os.path.split(k)[0] ==
variable and os.path.split(k)[1] not in ['.zgroup', '.zarray',
'.zattrs']`. -/
def varEntrySel (v : String) (k : RefKey) : Bool :=
  (keyPath k == v) && !skipDoc k

/-- The per-variable loop of `_build_output` (lines 402-411): for source
index `i`, copy each non-metadata entry of the variable, unchanged when
the merged shape equals the single-source shape, else with the source
index prepended to the chunk coordinate. -/
def varLoop (v : String) (same : Bool) (fss : List Store) (out : Store) : Store :=
  fss.enum.foldl
    (fun acc p =>
      p.2.foldl
        (fun acc2 kv =>
          if varEntrySel v kv.1 then
            dinsert (if same then kv.1 else rewriteKey p.1 kv.1) kv.2 acc2
          else acc2)
        acc)
    out

/-- `MultiZarrToZarr._build_output`: seed with the merged metadata
(`ds.to_zarr`), write derived coordinates for extra/concatenated
dimensions, copy shared-dimension entries from the first source, then run
the per-variable loop (variables that are dimensions are skipped). -/
def buildOutput (seed : Store) (extraConcat : List String) (coordData : String → Store)
    (sameDims : List String) (dims : List String) (vars : List String)
    (sameShape : String → Bool) (fss : List Store) : Store :=
  let out0 := ecStep coordData extraConcat seed
  let out1 := sameDimsStep (fss.headD []) sameDims out0
  vars.foldl
    (fun acc v => if v ∈ dims then acc else varLoop v (sameShape v) fss acc) out1

/-- `Counter` update: first-seen order, counts incremented in place. -/
def bumpCount (u : String) : List (String × Nat) → List (String × Nat)
  | [] => [(u, 1)]
  | (k, c) :: rest => if k = u then (k, c + 1) :: rest else (k, c) :: bumpCount u rest

/-- `Counter(v[0] for v in mapping.values() if isinstance(v, list))`. -/
def urlCounts (m : Store) : List (String × Nat) :=
  m.foldl
    (fun acc kv =>
      match kv.2 with
      | .ref u _ _ => bumpCount u acc
      | _ => acc) []

/-- `string.ascii_letters[i]` (lowercase `a`-`z` then uppercase `A`-`Z`;
the source raises `IndexError` past 52 distinct templated urls, which the
claims never reach). -/
def symFor (i : Nat) : String :=
  String.mk [if i < 26 then Char.ofNat (97 + i) else Char.ofNat (65 + (i - 26))]

/-- The templates table of `_consolidate` (lines 362-363): enumerate ALL
distinct urls in first-seen order and keep those whose count exceeds the
threshold, keyed by the letter at the url's enumeration index. -/
def templatesOf (counts : List (String × Nat)) (tc : Nat) : List (String × String) :=
  (counts.enum.filter (fun p => tc < p.2.2)).map (fun p => (symFor p.1, p.2.1))

/-- `inv = {v: k for k, v in templates.items()}` as a lookup. -/
def invOf (templates : List (String × String)) (u : String) : Option String :=
  (templates.find? (fun p => p.2 == u)).map Prod.fst

/-- `fs.cat_file(u, start, end)`: the byte range `[start, end)`. -/
def extractRange (content : List Nat) (a b : Nat) : List Nat :=
  (content.drop a).take (b - a)

/-- Bytes to the output string: `v.decode('ascii')` on success, else
`(b"base64:" + base64.b64encode(v)).decode()`. -/
def asciiOrTagStr (b : List Nat) : String :=
  if isAscii b then String.mk (b.map Char.ofNat)
  else String.mk ((b64tag ++ encodeB64 b).map Char.ofNat)

/-- Serialized consolidated output `{"version": 1, "templates": ..,
"refs": ..}`. -/
structure ConsOut where
  version : Nat
  templates : List (String × String)
  refs : Store
  deriving DecidableEq, Repr

/-- Per-entry action of `_consolidate`: small remote references are
fetched and inlined as strings; bytes become strings; remaining remote
references naming a templated url get the `"{{sym}}"` placeholder.  (A
`str` input value is copied unchanged; the source would raise `TypeError`
if its first character matched a templated url, and source identifiers
are never single characters.) -/
def consVal (fsread : String → List Nat) (templates : List (String × String))
    (it : Nat) : RefValue → RefValue
  | .ref u o s =>
    if s < it then .str (asciiOrTagStr (extractRange (fsread u) o (o + s)))
    else
      match invOf templates u with
      | some sym => .ref ("\x7b\x7b" ++ sym ++ "\x7d\x7d") o s
      | none => .ref u o s
  | .bytes b => .str (asciiOrTagStr b)
  | .str s => .str s

/-- `MultiZarrToZarr._consolidate(mapping, inline_threashold, template_count)`. -/
def consolidate (fsread : String → List Nat) (m : Store) (it tc : Nat) : ConsOut :=
  let templates := templatesOf (urlCounts m) tc
  { version := 1
    templates := templates
    refs := m.foldl (fun out kv => dinsert kv.1 (consVal fsread templates it kv.2) out) [] }

/-! ## Structure lemmas for the `_build_output` loops -/

theorem rewriteKey_path (i : Nat) (k : RefKey) :
    keyPath (rewriteKey i k) = keyPath k := by
  cases k <;> rfl

/-- The entries the variable loop inserts, per enumerated source, in
order. -/
def varEntries (v : String) (same : Bool) : List (Nat × Store) → Store
  | [] => []
  | p :: rest =>
      (p.2.filter (fun kv => varEntrySel v kv.1)).map
        (fun kv => ((if same then kv.1 else rewriteKey p.1 kv.1), kv.2)) ++
      varEntries v same rest

theorem inner_fold_eq (v : String) (same : Bool) (i : Nat) (fs : Store) :
    ∀ acc : Store,
      fs.foldl (fun acc2 kv =>
        if varEntrySel v kv.1 then
          dinsert (if same then kv.1 else rewriteKey i kv.1) kv.2 acc2
        else acc2) acc =
      dupdate acc ((fs.filter (fun kv => varEntrySel v kv.1)).map
        (fun kv => ((if same then kv.1 else rewriteKey i kv.1), kv.2))) := by
  induction fs with
  | nil => intro acc; rfl
  | cons kv rest ih =>
    intro acc
    by_cases hc : varEntrySel v kv.1 = true
    · simp only [List.foldl_cons, List.filter_cons, hc, eq_self_iff_true, if_true,
        List.map_cons]
      rw [ih]
      rfl
    · have hc' : varEntrySel v kv.1 = false := by
        revert hc
        cases varEntrySel v kv.1 <;> simp
      simp only [List.foldl_cons, List.filter_cons, hc', Bool.false_eq_true, if_false]
      exact ih acc

theorem varLoop_eq (v : String) (same : Bool) (fss : List Store) (out : Store) :
    varLoop v same fss out = dupdate out (varEntries v same fss.enum) := by
  unfold varLoop
  generalize fss.enum = l
  induction l generalizing out with
  | nil => rfl
  | cons p rest ih =>
    simp only [List.foldl_cons]
    rw [inner_fold_eq v same p.1 p.2 out, varEntries, dupdate_append]
    exact ih _

theorem varEntries_keys_path (v : String) (same : Bool) :
    ∀ l : List (Nat × Store), ∀ x ∈ dkeys (varEntries v same l), keyPath x = v := by
  intro l
  induction l with
  | nil => intro x hx; simp [varEntries] at hx
  | cons p rest ih =>
    intro x hx
    rw [varEntries, dkeys_append, List.mem_append] at hx
    rcases hx with hx | hx
    · rcases List.mem_map.1 hx with ⟨kv, hkv, rfl⟩
      rcases List.mem_map.1 hkv with ⟨kv0, hkv0, rfl⟩
      have hsel : varEntrySel v kv0.1 = true := by
        have := List.of_mem_filter hkv0
        simpa using this
      have hpath : keyPath kv0.1 = v := by
        simp only [varEntrySel, Bool.and_eq_true, beq_iff_eq] at hsel
        exact hsel.1
      by_cases hsame : same
      · simp [hsame, hpath]
      · have : same = false := by revert hsame; cases same <;> simp
        simp [this, rewriteKey_path, hpath]
    · exact ih x hx

theorem varEntries_mem_of (v : String) (same : Bool) :
    ∀ l : List (Nat × Store), ∀ p ∈ l, ∀ kv0 ∈ p.2, varEntrySel v kv0.1 = true →
      ((if same then kv0.1 else rewriteKey p.1 kv0.1), kv0.2) ∈ varEntries v same l := by
  intro l
  induction l with
  | nil => intro p hp; simp at hp
  | cons q rest ih =>
    intro p hp kv0 hkv0 hsel
    rw [varEntries, List.mem_append]
    rcases List.mem_cons.mp hp with rfl | hp'
    · exact Or.inl (List.mem_map.2 ⟨kv0, List.mem_filter.2 ⟨hkv0, by simpa using hsel⟩, rfl⟩)
    · exact Or.inr (ih p hp' kv0 hkv0 hsel)

/-- Under the store-shape hypothesis (all selected entries of an array are
chunk entries), every key the variable loop inserts in the
shape-differs case is the source-index-prepended chunk key of an entry of
that source. -/
theorem varEntries_false_keys_shape (v : String) :
    ∀ l : List (Nat × Store),
      (∀ p ∈ l, ∀ k ∈ dkeys p.2, keyPath k = v → skipDoc k = false →
        ∃ c, k = RefKey.chunk v c) →
      ∀ x ∈ dkeys (varEntries v false l),
        ∃ p ∈ l, ∃ c, x = RefKey.chunk v (p.1 :: c) ∧ RefKey.chunk v c ∈ dkeys p.2 := by
  intro l
  induction l with
  | nil => intro _ x hx; simp [varEntries] at hx
  | cons q rest ih =>
    intro hch x hx
    rw [varEntries, dkeys_append, List.mem_append] at hx
    rcases hx with hx | hx
    · rcases List.mem_map.1 hx with ⟨kv, hkv, rfl⟩
      rcases List.mem_map.1 hkv with ⟨kv0, hkv0, rfl⟩
      have hmem : kv0 ∈ q.2 := List.mem_of_mem_filter hkv0
      have hsel : varEntrySel v kv0.1 = true := by
        have := List.of_mem_filter hkv0
        simpa using this
      simp only [varEntrySel, Bool.and_eq_true, beq_iff_eq, Bool.not_eq_true'] at hsel
      rcases hch q (by simp) kv0.1 (List.mem_map.2 ⟨kv0, hmem, rfl⟩) hsel.1 hsel.2
        with ⟨c, hc⟩
      refine ⟨q, by simp, c, ?_, ?_⟩
      · simp [hc, rewriteKey]
      · rw [← hc]
        exact List.mem_map.2 ⟨kv0, hmem, rfl⟩
    · rcases ih (fun p hp => hch p (by simp [hp])) x hx with ⟨p, hp, c, hxc, hcm⟩
      exact ⟨p, by simp [hp], c, hxc, hcm⟩

/-- Every key of the first block of `varEntries v false (q :: rest)` is a
`q.1`-prepended chunk key of the array `v`, under the store-shape
hypothesis for `q`. -/
theorem block_keys_shape (v : String) (q : Nat × Store)
    (hch : ∀ k ∈ dkeys q.2, keyPath k = v → skipDoc k = false →
      ∃ c, k = RefKey.chunk v c)
    (a : RefKey)
    (ha : a ∈ dkeys ((q.2.filter (fun kv => varEntrySel v kv.1)).map
      (fun kv => ((if (false : Bool) then kv.1 else rewriteKey q.1 kv.1), kv.2)))) :
    ∃ c x, a = RefKey.chunk v (q.1 :: c) ∧ a = rewriteKey q.1 x ∧
      x ∈ dkeys (q.2.filter (fun kv => varEntrySel v kv.1)) := by
  have heq : dkeys ((q.2.filter (fun kv => varEntrySel v kv.1)).map
      (fun kv => ((if (false : Bool) then kv.1 else rewriteKey q.1 kv.1), kv.2))) =
      (dkeys (q.2.filter (fun kv => varEntrySel v kv.1))).map (rewriteKey q.1) := by
    simp [dkeys, List.map_map, Function.comp]
  rw [heq] at ha
  rcases List.mem_map.1 ha with ⟨x, hx, rfl⟩
  rcases entry_of_mem_dkeys_filter hx with ⟨vx, hvx, hpx⟩
  simp only [varEntrySel, Bool.and_eq_true, beq_iff_eq, Bool.not_eq_true'] at hpx
  rcases hch x (List.mem_map.2 ⟨(x, vx), hvx, rfl⟩) hpx.1 hpx.2 with ⟨cx, rfl⟩
  exact ⟨cx, RefKey.chunk v cx, rfl, rfl, hx⟩

theorem varEntries_false_nodup (v : String) :
    ∀ l : List (Nat × Store),
      (l.map Prod.fst).Nodup →
      (∀ p ∈ l, (dkeys p.2).Nodup) →
      (∀ p ∈ l, ∀ k ∈ dkeys p.2, keyPath k = v → skipDoc k = false →
        ∃ c, k = RefKey.chunk v c) →
      (dkeys (varEntries v false l)).Nodup := by
  intro l
  induction l with
  | nil => intro _ _ _; simp [varEntries]
  | cons q rest ih =>
    intro hidx hnd hch
    rw [List.map_cons, List.nodup_cons] at hidx
    rw [varEntries, dkeys_append, List.nodup_append]
    have hchq := hch q (by simp)
    refine ⟨?_, ih hidx.2 (fun p hp => hnd p (by simp [hp]))
      (fun p hp => hch p (by simp [hp])), ?_⟩
    · have heq : dkeys ((q.2.filter (fun kv => varEntrySel v kv.1)).map
          (fun kv => ((if (false : Bool) then kv.1 else rewriteKey q.1 kv.1), kv.2))) =
          (dkeys (q.2.filter (fun kv => varEntrySel v kv.1))).map (rewriteKey q.1) := by
        simp [dkeys, List.map_map, Function.comp]
      rw [heq]
      apply List.Nodup.map_on
      · intro x hx y hy hxy
        rcases entry_of_mem_dkeys_filter hx with ⟨vx, hvx, hpx⟩
        rcases entry_of_mem_dkeys_filter hy with ⟨vy, hvy, hpy⟩
        simp only [varEntrySel, Bool.and_eq_true, beq_iff_eq, Bool.not_eq_true'] at hpx hpy
        rcases hchq x (List.mem_map.2 ⟨(x, vx), hvx, rfl⟩) hpx.1 hpx.2 with ⟨cx, rfl⟩
        rcases hchq y (List.mem_map.2 ⟨(y, vy), hvy, rfl⟩) hpy.1 hpy.2 with ⟨cy, rfl⟩
        simp only [rewriteKey, RefKey.chunk.injEq, List.cons.injEq] at hxy
        simp [hxy.1, hxy.2.2]
      · exact dkeys_filter_nodup _ (hnd q (by simp))
    · intro a ha hb
      rcases varEntries_false_keys_shape v rest (fun p hp => hch p (by simp [hp])) a hb
        with ⟨p, hp, c, hac, _⟩
      rcases block_keys_shape v q hchq a ha with ⟨c', _, rfl, _, _⟩
      rw [RefKey.chunk.injEq] at hac
      have hqp : q.1 = p.1 := by
        have h2 := hac.2
        injection h2
      exact hidx.1 (hqp ▸ List.mem_map.2 ⟨p, hp, rfl⟩)

/-- The number of chunk entries of array `v` in a store. -/
def countChunks (v : String) (st : Store) : Nat :=
  (st.filter (fun kv => isChunkOf v kv.1)).length

/-- No entry of a store free of `zp`-chunk keys survives the chunk
filter. -/
theorem filter_chunk_nil {zp : String} {st : Store}
    (hst : ∀ c, RefKey.chunk zp c ∉ dkeys st) :
    st.filter (fun kv => isChunkOf zp kv.1) = [] := by
  apply List.filter_eq_nil_iff.2
  intro kv hkv hp
  cases hkv1 : kv.1 with
  | meta p d => rw [hkv1] at hp; simp [isChunkOf] at hp
  | chunk q c =>
    rw [hkv1] at hp
    simp only [isChunkOf, beq_iff_eq] at hp
    subst hp
    exact hst c (hkv1 ▸ List.mem_map.2 ⟨kv, hkv, rfl⟩)

theorem varEntries_false_count (v : String) :
    ∀ l : List (Nat × Store),
      (∀ p ∈ l, ∀ k ∈ dkeys p.2, keyPath k = v → skipDoc k = false →
        ∃ c, k = RefKey.chunk v c) →
      countChunks v (varEntries v false l) =
        (l.map (fun p => countChunks v p.2)).sum := by
  intro l
  induction l with
  | nil => intro _; rfl
  | cons q rest ih =>
    intro hch
    rw [varEntries, List.map_cons, List.sum_cons]
    unfold countChunks
    rw [List.filter_append, List.length_append]
    congr 1
    · -- block count: every rewritten entry is still a chunk-of-v entry,
      -- and the selector keeps exactly the chunk entries of v
      rw [List.filter_eq_self.2 ?_]
      · rw [List.length_map]
        apply congrArg
        apply List.filter_congr
        intro kv hkv
        cases hk : kv.1 with
        | chunk p c =>
          simp only [varEntrySel, skipDoc, isChunkOf, keyPath, hk, Bool.not_false,
            Bool.and_true]
        | meta p d =>
          by_cases hpv : p = v
          · by_cases hsd : skipDoc (RefKey.meta p d) = true
            · simp [varEntrySel, hk, hsd, isChunkOf]
            · exfalso
              have hsd' : skipDoc (RefKey.meta p d) = false := by
                revert hsd
                cases skipDoc (RefKey.meta p d) <;> simp
              rcases hch q (by simp) kv.1 (List.mem_map.2 ⟨kv, hkv, rfl⟩)
                (by simp [hk, keyPath, hpv]) (by rw [hk]; exact hsd') with ⟨c, hc⟩
              rw [hk] at hc
              cases hc
          · simp [varEntrySel, hk, keyPath, hpv, isChunkOf]
      · intro kv hkv
        rcases List.mem_map.1 hkv with ⟨kv0, hkv0, rfl⟩
        have hsel : varEntrySel v kv0.1 = true := by
          have := List.of_mem_filter hkv0
          simpa using this
        simp only [varEntrySel, Bool.and_eq_true, beq_iff_eq, Bool.not_eq_true'] at hsel
        rcases hch q (by simp) kv0.1
          (List.mem_map.2 ⟨kv0, List.mem_of_mem_filter hkv0, rfl⟩) hsel.1 hsel.2
          with ⟨c, hc⟩
        simp [hc, rewriteKey, isChunkOf]
    · exact ih (fun p hp => hch p (by simp [hp]))

/-! ## Claim C5 -/

/-- C5: in `_build_output`'s variable loop, when the merged shape of a
variable differs from its single-source shape, the chunk key of every
entry taken from source `i` is rewritten by prepending `i` as an extra
leading chunk coordinate (so the consolidated store holds one logically
distinct key per source chunk, the source index encoded in each, with
zero collisions: the total chunk-entry count is the sum over sources);
when the shapes are equal, keys are inserted unchanged. -/
theorem consolidation_key_rewrite (v : String) (mergedShape srcShape : List Nat)
    (fss : List Store) (out0 : Store)
    (hnd : ∀ fs ∈ fss, (dkeys fs).Nodup)
    (hch : ∀ fs ∈ fss, ∀ k ∈ dkeys fs, keyPath k = v → skipDoc k = false →
      ∃ c, k = RefKey.chunk v c)
    (hout : ∀ c, RefKey.chunk v c ∉ dkeys out0) :
    (mergedShape ≠ srcShape →
      (∀ i fs c val, (i, fs) ∈ fss.enum →
        dlookup (RefKey.chunk v c) fs = some val →
        dlookup (RefKey.chunk v (i :: c))
          (varLoop v (mergedShape == srcShape) fss out0) = some val) ∧
      countChunks v (varLoop v (mergedShape == srcShape) fss out0) =
        (fss.map (countChunks v)).sum) ∧
    (mergedShape = srcShape →
      ∀ fs ∈ fss, ∀ k val, dlookup k fs = some val → varEntrySel v k = true →
        k ∈ dkeys (varLoop v (mergedShape == srcShape) fss out0)) := by
  have hch' : ∀ p ∈ fss.enum, ∀ k ∈ dkeys p.2, keyPath k = v → skipDoc k = false →
      ∃ c, k = RefKey.chunk v c := by
    intro p hp
    exact hch p.2 (List.getElem?_mem
      (by simpa using List.mem_enum_iff_getElem?.mp (by simpa using hp)))
  have hidx : (fss.enum.map Prod.fst).Nodup := by
    rw [List.enum_map_fst]
    exact List.nodup_range _
  have hnd' : ∀ p ∈ fss.enum, (dkeys p.2).Nodup := by
    intro p hp
    exact hnd p.2 (List.getElem?_mem
      (by simpa using List.mem_enum_iff_getElem?.mp (by simpa using hp)))
  constructor
  · intro hne
    have hb : (mergedShape == srcShape) = false := beq_eq_false_iff_ne.2 hne
    rw [hb]
    have hndve : (dkeys (varEntries v false fss.enum)).Nodup :=
      varEntries_false_nodup v fss.enum hidx hnd' hch'
    constructor
    · intro i fs c val hmem hk
      rw [varLoop_eq]
      have hsel : varEntrySel v (RefKey.chunk v c) = true := by
        simp [varEntrySel, skipDoc, keyPath]
      have hment : (RefKey.chunk v (i :: c), val) ∈ varEntries v false fss.enum := by
        have := varEntries_mem_of v false fss.enum (i, fs) hmem
          (RefKey.chunk v c, val) (mem_of_dlookup hk) hsel
        simpa [rewriteKey] using this
      have hlook : dlookup (RefKey.chunk v (i :: c)) (varEntries v false fss.enum) =
          some val := dlookup_eq_of_mem hndve hment
      rw [dlookup_dupdate _ _ _ hndve, hlook]
    · rw [varLoop_eq]
      have hfr : ∀ x ∈ dkeys (varEntries v false fss.enum), x ∉ dkeys out0 := by
        intro x hx
        rcases varEntries_false_keys_shape v fss.enum hch' x hx with ⟨p, _, c, rfl, _⟩
        exact hout _
      rw [dupdate_fresh hfr hndve]
      unfold countChunks
      rw [List.filter_append, List.length_append, filter_chunk_nil hout,
        List.length_nil, Nat.zero_add]
      have := varEntries_false_count v fss.enum hch'
      unfold countChunks at this
      rw [this]
      rw [show (fun p : Nat × Store => (List.filter (fun kv => isChunkOf v kv.1) p.2).length)
          = ((fun st : Store => (List.filter (fun kv => isChunkOf v kv.1) st).length) ∘ Prod.snd)
        from rfl, ← List.map_map, List.enum_map_snd]
  · intro heq fs hfs k val hk hsel
    have hb : (mergedShape == srcShape) = true := beq_iff_eq.2 heq
    rw [hb, varLoop_eq]
    rcases List.getElem?_of_mem hfs with ⟨i, hi⟩
    have hmem : (i, fs) ∈ fss.enum := List.mem_enum_iff_getElem?.mpr hi
    have hment := varEntries_mem_of v true fss.enum (i, fs) hmem (k, val)
      (mem_of_dlookup hk) hsel
    simp only [if_true] at hment
    exact mem_dkeys_dupdate_right (List.mem_map.2 ⟨_, hment, rfl⟩)

/-- Scenario B's three per-source stores: each source holds the variable
`v` with five unit chunks `v/0` ... `v/4` plus its metadata documents. -/
def scenarioSource (i : Nat) : Store :=
  [(RefKey.meta "v" ".zarray", RefValue.str "zarray"),
   (RefKey.chunk "v" [0], RefValue.ref ("u" ++ Nat.repr i) 0 8),
   (RefKey.chunk "v" [1], RefValue.ref ("u" ++ Nat.repr i) 8 8),
   (RefKey.chunk "v" [2], RefValue.ref ("u" ++ Nat.repr i) 16 8),
   (RefKey.chunk "v" [3], RefValue.ref ("u" ++ Nat.repr i) 24 8),
   (RefKey.chunk "v" [4], RefValue.ref ("u" ++ Nat.repr i) 32 8)]

theorem consolidation_key_rewrite_witness :
    ([15] ≠ ([5] : List Nat) →
      (∀ i fs c val, (i, fs) ∈ [scenarioSource 0, scenarioSource 1, scenarioSource 2].enum →
        dlookup (RefKey.chunk "v" c) fs = some val →
        dlookup (RefKey.chunk "v" (i :: c))
          (varLoop "v" (([15] : List Nat) == [5])
            [scenarioSource 0, scenarioSource 1, scenarioSource 2] []) = some val) ∧
      countChunks "v" (varLoop "v" (([15] : List Nat) == [5])
          [scenarioSource 0, scenarioSource 1, scenarioSource 2] []) =
        ([scenarioSource 0, scenarioSource 1, scenarioSource 2].map (countChunks "v")).sum) ∧
    (([15] : List Nat) = [5] →
      ∀ fs ∈ [scenarioSource 0, scenarioSource 1, scenarioSource 2], ∀ k val,
        dlookup k fs = some val → varEntrySel "v" k = true →
        k ∈ dkeys (varLoop "v" (([15] : List Nat) == [5])
          [scenarioSource 0, scenarioSource 1, scenarioSource 2] [])) :=
  consolidation_key_rewrite "v" [15] [5]
    [scenarioSource 0, scenarioSource 1, scenarioSource 2] []
    (by decide)
    (by
      intro fs hfs k hk hpath hskip
      have hfs' : fs = scenarioSource 0 ∨ fs = scenarioSource 1 ∨ fs = scenarioSource 2 := by
        simpa using hfs
      rcases hfs' with rfl | rfl | rfl <;>
        · simp only [scenarioSource, dkeys, List.map_cons, List.map_nil,
            List.mem_cons, List.not_mem_nil, or_false] at hk
          rcases hk with rfl | rfl | rfl | rfl | rfl | rfl
          · exact absurd hskip (by decide)
          · exact ⟨[0], rfl⟩
          · exact ⟨[1], rfl⟩
          · exact ⟨[2], rfl⟩
          · exact ⟨[3], rfl⟩
          · exact ⟨[4], rfl⟩)
    (by intro c h; simp at h)

/-- Scenario B count: with 3 sources of 5 chunks each and differing
shapes, the loop produces exactly 15 chunk entries for `v`. -/
theorem consolidation_fifteen_chunks :
    countChunks "v" (varLoop "v" false
      [scenarioSource 0, scenarioSource 1, scenarioSource 2] []) = 15 := by decide

/-! ## Claim C7 -/

theorem keyStarts_of_path (dim : String) (k : RefKey) (h : keyPath k = dim) :
    keyStarts dim k = true := by
  cases k with
  | meta p d =>
    simp only [keyPath] at h
    subst h
    exact isPrefixOf_append_self_char _ _
  | chunk p c =>
    simp only [keyPath] at h
    subst h
    exact isPrefixOf_append_self_char _ _

/-- C7: in `_build_output`, every reference entry of a shared dimension's
coordinate array in the final store is the one copied verbatim from the
first source's store — lookups of any key of that array agree with the
first source, and no other source contributes (the variable loop never
touches dimension arrays, and the shared-dimension loop reads `fss[0]`
only), so a coordinate dimension identical in all sources appears exactly
once. -/
theorem shared_dim_from_first_source_only
    (seed : Store) (extraConcat : List String) (coordData : String → Store)
    (sameDims dims vars : List String) (sameShape : String → Bool)
    (fs0 : Store) (rest : List Store) (dim : String)
    (hdim_s : dim ∈ sameDims) (hdim_d : dim ∈ dims)
    (hnd0 : (dkeys fs0).Nodup)
    (hseed : ∀ k ∈ dkeys seed, keyPath k = dim → k ∈ dkeys fs0)
    (hec : ∀ d ∈ extraConcat, ∀ k ∈ dkeys (coordData d), keyPath k = d)
    (hdimec : dim ∉ extraConcat) :
    ∀ k, keyPath k = dim →
      dlookup k (buildOutput seed extraConcat coordData sameDims dims vars sameShape
        (fs0 :: rest)) = dlookup k fs0 := by
  -- containment invariant P and value invariant E
  have hnotin_fs0 : ∀ k, dlookup k fs0 = none → k ∉ dkeys fs0 := by
    intro k hl hmem
    rcases List.mem_map.1 hmem with ⟨kv, hkv, rfl⟩
    rw [dlookup_eq_of_mem hnd0 (show (kv.1, kv.2) ∈ fs0 from hkv)] at hl
    cases hl
  -- Step A: the extra/concat coordinate writes never touch dim-keys
  have hA : ∀ (l : List String) (acc : Store),
      (∀ d ∈ l, ∀ k ∈ dkeys (coordData d), keyPath k = d) → dim ∉ l →
      (∀ k ∈ dkeys acc, keyPath k = dim → k ∈ dkeys fs0) →
      ∀ k ∈ dkeys (l.foldl (fun acc d => dupdate acc (coordData d)) acc),
        keyPath k = dim → k ∈ dkeys fs0 := by
    intro l
    induction l with
    | nil => intro acc _ _ hacc; exact hacc
    | cons d tl ih =>
      intro acc hcd hnin hacc
      rw [List.foldl_cons]
      apply ih (dupdate acc (coordData d)) (fun d' hd' => hcd d' (by simp [hd']))
        (fun h => hnin (by simp [h]))
      intro k hk hkp
      rcases mem_dupdate_keys hk with h | h
      · exact hacc k h hkp
      · exfalso
        have hkd : keyPath k = d := hcd d (by simp) k h
        have hdd : d = dim := by rw [← hkd, hkp]
        subst hdd
        exact hnin (List.mem_cons_self _ _)
  -- Step B invariants over the shared-dims fold
  have hP_steps : ∀ (l : List String) (acc : Store),
      (∀ k, keyPath k = dim → k ∈ dkeys acc → k ∈ dkeys fs0) →
      ∀ k, keyPath k = dim →
        k ∈ dkeys (l.foldl (fun acc d => dupdate acc (filterStarts d fs0)) acc) →
        k ∈ dkeys fs0 := by
    intro l
    induction l with
    | nil => intro acc hacc; exact hacc
    | cons d tl ih =>
      intro acc hacc
      rw [List.foldl_cons]
      apply ih
      intro k hkp hk
      rcases mem_dupdate_keys hk with h | h
      · exact hacc k hkp h
      · exact mem_dkeys_filter h
  have hE_dim : ∀ acc : Store,
      (∀ k, keyPath k = dim → k ∈ dkeys acc → k ∈ dkeys fs0) →
      ∀ k, keyPath k = dim →
        dlookup k (dupdate acc (filterStarts dim fs0)) = dlookup k fs0 := by
    intro acc hP k hkp
    have hstart : keyStarts dim k = true := keyStarts_of_path dim k hkp
    have hndf : (dkeys (filterStarts dim fs0)).Nodup := dkeys_filter_nodup _ hnd0
    rw [dlookup_dupdate _ _ _ hndf]
    rw [show filterStarts dim fs0 = fs0.filter (fun kv => keyStarts dim kv.1) from rfl,
      dlookup_filter (keyStarts dim) k fs0 hstart]
    cases hl : dlookup k fs0 with
    | some v => rfl
    | none =>
      have hnot : k ∉ dkeys acc := fun hmem => hnotin_fs0 k hl (hP k hkp hmem)
      simp [dlookup_eq_none_of_not_mem hnot]
  have hE_steps : ∀ (l : List String) (acc : Store),
      (∀ k, keyPath k = dim → dlookup k acc = dlookup k fs0) →
      ∀ k, keyPath k = dim →
        dlookup k (l.foldl (fun acc d => dupdate acc (filterStarts d fs0)) acc) =
          dlookup k fs0 := by
    intro l
    induction l with
    | nil => intro acc hacc; exact hacc
    | cons d tl ih =>
      intro acc hacc
      rw [List.foldl_cons]
      apply ih
      intro k hkp
      have hndf : (dkeys (filterStarts d fs0)).Nodup := dkeys_filter_nodup _ hnd0
      rw [dlookup_dupdate _ _ _ hndf]
      cases hf : dlookup k (filterStarts d fs0) with
      | none => exact hacc k hkp
      | some v =>
        have hmem0 : (k, v) ∈ fs0 := List.mem_of_mem_filter (mem_of_dlookup hf)
        simp [dlookup_eq_of_mem hnd0 hmem0]
  -- Step C: the variable loop never writes a dim-key
  have hvar_steps : ∀ (l : List String) (acc : Store),
      (∀ k, keyPath k = dim → dlookup k acc = dlookup k fs0) →
      ∀ k, keyPath k = dim →
        dlookup k (l.foldl (fun acc v =>
          if v ∈ dims then acc else varLoop v (sameShape v) (fs0 :: rest) acc) acc) =
          dlookup k fs0 := by
    intro l
    induction l with
    | nil => intro acc hacc; exact hacc
    | cons v tl ih =>
      intro acc hacc
      rw [List.foldl_cons]
      apply ih
      by_cases hv : v ∈ dims
      · rw [if_pos hv]; exact hacc
      · rw [if_neg hv]
        intro k hkp
        rw [varLoop_eq]
        have hnotin : k ∉ dkeys (varEntries v (sameShape v) (fs0 :: rest).enum) := by
          intro hmem
          have hkv : keyPath k = v := varEntries_keys_path v (sameShape v) _ k hmem
          exact hv ((hkv ▸ hkp : v = dim) ▸ hdim_d)
        rw [dlookup_dupdate_not_mem hnotin]
        exact hacc k hkp
  -- assemble
  intro k hkp
  rcases List.append_of_mem hdim_s with ⟨l1, l2, rfl⟩
  show dlookup k (buildOutput seed extraConcat coordData (l1 ++ dim :: l2) dims vars
    sameShape (fs0 :: rest)) = dlookup k fs0
  unfold buildOutput
  simp only [List.headD_cons]
  rw [show sameDimsStep fs0 (l1 ++ dim :: l2) (ecStep coordData extraConcat seed) =
      (dim :: l2).foldl (fun acc d => dupdate acc (filterStarts d fs0))
        (l1.foldl (fun acc d => dupdate acc (filterStarts d fs0))
          (ecStep coordData extraConcat seed)) from by
    simp [sameDimsStep, List.foldl_append]]
  rw [List.foldl_cons]
  apply hvar_steps
  apply hE_steps
  apply hE_dim
  intro k' hk' hmem'
  apply hP_steps l1 (ecStep coordData extraConcat seed) ?_ k' hk' hmem'
  intro k'' hk'' hmem''
  exact hA extraConcat seed hec hdimec hseed k'' (by simpa [ecStep] using hmem'') hk''
  exact hkp

/-- A first source holding a shared coordinate array `x` and a data
variable. -/
def sharedFs0 : Store :=
  [(RefKey.meta "x" ".zarray", RefValue.str "zx"),
   (RefKey.chunk "x" [0], RefValue.ref "u0" 0 16),
   (RefKey.chunk "t" [0], RefValue.ref "u0" 16 8)]

/-- Another source with the same coordinate array but different byte
offsets, to show it is ignored. -/
def sharedFs1 : Store :=
  [(RefKey.meta "x" ".zarray", RefValue.str "zx"),
   (RefKey.chunk "x" [0], RefValue.ref "u1" 400 16),
   (RefKey.chunk "t" [0], RefValue.ref "u1" 416 8)]

theorem shared_dim_from_first_source_only_witness :
    dlookup (RefKey.chunk "x" [0])
      (buildOutput [(RefKey.meta "x" ".zarray", RefValue.str "seedx")] [] (fun _ => [])
        ["x"] ["x", "t"] ["x", "v"] (fun _ => true) (sharedFs0 :: [sharedFs1])) =
    dlookup (RefKey.chunk "x" [0]) sharedFs0 :=
  shared_dim_from_first_source_only
    [(RefKey.meta "x" ".zarray", RefValue.str "seedx")] [] (fun _ => [])
    ["x"] ["x", "t"] ["x", "v"] (fun _ => true) sharedFs0 [sharedFs1] "x"
    (by decide) (by decide) (by decide)
    (by
      intro k hk hkp
      simp only [dkeys, List.map_cons, List.map_nil, List.mem_cons,
        List.not_mem_nil, or_false] at hk
      subst hk
      decide)
    (by intro d hd; simp at hd) (by simp)
    (RefKey.chunk "x" [0]) rfl

/-! ## Claim C6 -/

theorem dkeys_bumpCount (u : String) (acc : List (String × Nat)) :
    dkeys (bumpCount u acc) =
      if u ∈ dkeys acc then dkeys acc else dkeys acc ++ [u] := by
  induction acc with
  | nil => simp [bumpCount, dkeys]
  | cons kv rest ih =>
    obtain ⟨k, c⟩ := kv
    by_cases hk : k = u
    · subst hk
      simp [bumpCount]
    · have hku : u ≠ k := fun h => hk h.symm
      by_cases hm : u ∈ dkeys rest
      · simp [bumpCount, hk, ih, hm, hku]
      · simp [bumpCount, hk, ih, hm, hku]

theorem dkeys_nodup_bumpCount (u : String) (acc : List (String × Nat))
    (h : (dkeys acc).Nodup) : (dkeys (bumpCount u acc)).Nodup := by
  rw [dkeys_bumpCount]
  by_cases hm : u ∈ dkeys acc
  · rw [if_pos hm]; exact h
  · rw [if_neg hm, List.nodup_append]
    refine ⟨h, by simp, ?_⟩
    intro a ha hb
    have : a = u := by simpa using hb
    exact hm (this ▸ ha)

theorem urlCounts_nodup (m : Store) : (dkeys (urlCounts m)).Nodup := by
  unfold urlCounts
  have hgen : ∀ (l : Store) (acc : List (String × Nat)), (dkeys acc).Nodup →
      (dkeys (l.foldl (fun acc kv =>
        match kv.2 with
        | .ref u _ _ => bumpCount u acc
        | _ => acc) acc)).Nodup := by
    intro l
    induction l with
    | nil => intro acc h; exact h
    | cons kv rest ih =>
      intro acc h
      rw [List.foldl_cons]
      cases hv : kv.2 with
      | ref u o s => simp only [hv]; exact ih _ (dkeys_nodup_bumpCount u acc h)
      | bytes b => simp only [hv]; exact ih _ h
      | str s => simp only [hv]; exact ih _ h
  exact hgen m [] (by simp)

theorem consolidate_refs_eq (fsread : String → List Nat) (m : Store) (it tc : Nat)
    (hnd : (dkeys m).Nodup) :
    (consolidate fsread m it tc).refs =
      m.map (fun kv => (kv.1, consVal fsread (templatesOf (urlCounts m) tc) it kv.2)) := by
  have h := foldl_dinsert_map
    (f := fun kv : RefKey × RefValue => consVal fsread (templatesOf (urlCounts m) tc) it kv.2)
    m [] hnd (by simp)
  simpa [consolidate] using h

theorem dlookup_map_val (f : RefKey × RefValue → RefValue) (k : RefKey)
    (m : Store) (v : RefValue) (h : dlookup k m = some v) :
    dlookup k (m.map (fun kv => (kv.1, f kv))) = some (f (k, v)) := by
  induction m with
  | nil => simp [dlookup] at h
  | cons kv rest ih =>
    obtain ⟨k', v'⟩ := kv
    by_cases hk : k' = k
    · subst hk
      rw [dlookup_cons, if_pos rfl] at h
      injection h with h
      subst h
      simp [dlookup]
    · rw [dlookup_cons, if_neg hk] at h
      simp only [List.map_cons, dlookup_cons, if_neg hk]
      exact ih h

theorem templates_unique (counts : List (String × Nat)) (tc : Nat) (u : String)
    (i c : Nat) (hnd : (dkeys counts).Nodup)
    (hi : counts[i]? = some (u, c)) (hc : tc < c) :
    (symFor i, u) ∈ templatesOf counts tc ∧
      ∀ p ∈ templatesOf counts tc, p.2 = u → p = (symFor i, u) := by
  constructor
  · unfold templatesOf
    apply List.mem_map.2
    refine ⟨(i, (u, c)), ?_, rfl⟩
    apply List.mem_filter.2
    exact ⟨List.mem_enum_iff_getElem?.2 hi, by simpa using hc⟩
  · intro p hp hpu
    unfold templatesOf at hp
    rcases List.mem_map.1 hp with ⟨q, hq, rfl⟩
    obtain ⟨j, uc⟩ := q
    have hqe : (j, uc) ∈ counts.enum := List.mem_of_mem_filter hq
    have hq2 : counts[j]? = some uc := List.mem_enum_iff_getElem?.1 hqe
    have hpu' : uc.1 = u := hpu
    have hki : (dkeys counts)[i]? = some u := by
      rw [dkeys, List.getElem?_map, hi]
      rfl
    have hkj : (dkeys counts)[j]? = some u := by
      rw [dkeys, List.getElem?_map, hq2]
      simp [hpu']
    have hib : i < (dkeys counts).length := by
      rw [List.getElem?_eq_some] at hki
      exact hki.1
    have hij : i = j := List.getElem?_inj hib hnd (hki.trans hkj.symm)
    subst hij
    rw [hpu']

theorem invOf_eq (T : List (String × String)) (u sym : String)
    (hmem : (sym, u) ∈ T) (huniq : ∀ p ∈ T, p.2 = u → p = (sym, u)) :
    invOf T u = some sym := by
  induction T with
  | nil => simp at hmem
  | cons q rest ih =>
    by_cases hq : q.2 = u
    · have hqe : q = (sym, u) := huniq q (by simp) hq
      subst hqe
      rw [invOf, List.find?_cons_of_pos _ (by simp)]
      rfl
    · rw [invOf, List.find?_cons_of_neg _ (by simp [hq])]
      have hmem' : (sym, u) ∈ rest := by
        rcases List.mem_cons.mp hmem with h | h
        · exact absurd (congrArg Prod.snd h.symm) hq
        · exact h
      have := ih hmem' (fun p hp => huniq p (by simp [hp]))
      simpa [invOf] using this

/-- C6 (amended): a source identifier `u` that is the `i`-th distinct
identifier (first-seen order, counting ALL distinct identifiers) and
occurs in more than `tc` remote-reference entries is templated: the
letter at index `i` maps to `u`, `u` appears under exactly one symbol in
the templates table, and every remote reference naming `u` whose size is
at least the inline threshold is rewritten to `["{{sym}}", offset,
size]`.  (Symbols are consumed also by identifiers at or below the
threshold, so a qualifying identifier need not receive the next unused
symbol; references below the inline threshold are inlined rather than
rewritten.) -/
theorem dedup_templates (fsread : String → List Nat) (m : Store) (it tc : Nat)
    (u : String) (i c : Nat)
    (hnd : (dkeys m).Nodup)
    (hct : (urlCounts m)[i]? = some (u, c)) (hcount : tc < c) :
    ((symFor i, u) ∈ (consolidate fsread m it tc).templates ∧
     ∀ p ∈ (consolidate fsread m it tc).templates, p.2 = u → p = (symFor i, u)) ∧
    (∀ k o s, dlookup k m = some (.ref u o s) → it ≤ s →
      dlookup k (consolidate fsread m it tc).refs =
        some (.ref ("\x7b\x7b" ++ symFor i ++ "\x7d\x7d") o s)) := by
  have huniq := templates_unique (urlCounts m) tc u i c (urlCounts_nodup m) hct hcount
  constructor
  · exact huniq
  · intro k o s hk hs
    rw [consolidate_refs_eq fsread m it tc hnd]
    rw [dlookup_map_val _ _ _ _ hk]
    have hinv : invOf (templatesOf (urlCounts m) tc) u = some (symFor i) :=
      invOf_eq _ _ _ huniq.1 huniq.2
    simp [consVal, Nat.not_lt.2 hs, hinv]

/-- Scenario D mapping: one identifier `q` in 6 chunk entries, all at or
above the inline threshold. -/
def sixEntryMapping : Store :=
  [(RefKey.chunk "v" [0], RefValue.ref "q" 0 200),
   (RefKey.chunk "v" [1], RefValue.ref "q" 200 200),
   (RefKey.chunk "v" [2], RefValue.ref "q" 400 200),
   (RefKey.chunk "v" [3], RefValue.ref "q" 600 200),
   (RefKey.chunk "v" [4], RefValue.ref "q" 800 200),
   (RefKey.chunk "v" [5], RefValue.ref "q" 1000 200)]

theorem dedup_templates_witness :
    ((symFor 0, "q") ∈ (consolidate (fun _ => []) sixEntryMapping 100 5).templates ∧
     ∀ p ∈ (consolidate (fun _ => []) sixEntryMapping 100 5).templates,
       p.2 = "q" → p = (symFor 0, "q")) ∧
    (∀ k o s, dlookup k sixEntryMapping = some (.ref "q" o s) → 100 ≤ s →
      dlookup k (consolidate (fun _ => []) sixEntryMapping 100 5).refs =
        some (.ref ("\x7b\x7b" ++ symFor 0 ++ "\x7d\x7d") o s)) :=
  dedup_templates (fun _ => []) sixEntryMapping 100 5 "q" 0 6
    (by decide) rfl (by decide)

/-- A mapping whose first-seen identifier `p` occurs once (below the
dedup threshold) while `q` occurs six times, one entry of `q` being
smaller than the consolidator's inline threshold. -/
def skewedMapping : Store :=
  [(RefKey.chunk "v" [0], RefValue.ref "p" 0 200),
   (RefKey.chunk "v" [1], RefValue.ref "q" 0 200),
   (RefKey.chunk "v" [2], RefValue.ref "q" 200 200),
   (RefKey.chunk "v" [3], RefValue.ref "q" 400 200),
   (RefKey.chunk "v" [4], RefValue.ref "q" 600 200),
   (RefKey.chunk "v" [5], RefValue.ref "q" 800 200),
   (RefKey.chunk "v" [6], RefValue.ref "q" 10 50)]

/-- C6 counterexample: with default thresholds, the only qualifying
identifier `q` receives the symbol `b` — not the next available symbol
`a`, which is consumed by the sub-threshold identifier `p` — and the
50-byte reference naming `q` is inlined as a string instead of having its
first element rewritten to the placeholder. -/
theorem template_symbol_not_next_available :
    (consolidate (fun _ => List.replicate 300 65) skewedMapping 100 5).templates =
      [("b", "q")] ∧
    dlookup (RefKey.chunk "v" [6])
        (consolidate (fun _ => List.replicate 300 65) skewedMapping 100 5).refs =
      some (RefValue.str (asciiOrTagStr (List.replicate 50 65))) := by
  exact ⟨rfl, rfl⟩

/-! ## Claim C1 -/

/-- A dataset with compact storage layout (shape `(2,)`, no filters). -/
def compactDS : HDS :=
  { name := "/d", zpath := "d", layout := .compact, scaleoffset := false,
    fletcher32 := false, shuffle := false, compression := none,
    shape := some [2], chunks := none, offset := none, storageSize := 0,
    rawChunks := [], isScale := false, dimScales := [[]] }

/-- C1: the claim says a compact-layout dataset makes `translate` raise a
fatal structural error; the code (`hdf.py` line 155) constructs the
`RuntimeError` without a `raise` statement and returns, so the translator
reports success with the store unchanged — the dataset is silently
skipped, exactly what the claim rules out. -/
theorem compact_dataset_silently_skipped :
    translatorDataset "u" false compactDS [] [] = .ok [] := rfl

/-! ## Claim C2 -/

/-- A gzip-compressed dataset that also uses the shuffle filter. -/
def gzipShuffleDS : HDS :=
  { name := "/g", zpath := "g", layout := .contiguous, scaleoffset := false,
    fletcher32 := false, shuffle := true, compression := some "gzip",
    shape := some [4], chunks := none, offset := some 0, storageSize := 16,
    rawChunks := [], isScale := false, dimScales := [[]] }

/-- C2 counterexample: a gzip-compressed dataset is rejected when it also
carries the shuffle filter, contradicting the claim that "datasets
compressed with gzip ... are accepted". -/
theorem gzip_shuffle_rejected :
    translatorDataset "u" false gzipShuffleDS [] [] =
      .error ("/g" ++ " uses unsupported HDF5 filters") := rfl

/-- C2 (amended): for a non-compact dataset, the translator raises
exactly when `scaleoffset`, `fletcher32`, `shuffle` is set or the reported
compression is szip/lzf (`filtersBad`); when no such filter is present
(gzip or uncompressed, no shuffle) and dimension attributes are not
requested, the dataset is accepted. -/
theorem unsupported_filters_behavior (uri : String) (xr : Bool) (ds : HDS)
    (mdocs store : Store) (hnc : ds.layout ≠ Layout.compact) :
    (filtersBad ds = true →
      translatorDataset uri xr ds mdocs store =
        .error (ds.name ++ " uses unsupported HDF5 filters")) ∧
    (filtersBad ds = false → xr = false →
      ∃ store', translatorDataset uri xr ds mdocs store = .ok store') := by
  constructor
  · intro hb
    simp [translatorDataset, hnc, hb]
  · intro hb hxr
    subst hxr
    refine ⟨dupdate (dupdate store mdocs)
      ((storageInfo ds).map (fun p => (RefKey.chunk ds.zpath p.1, RefValue.ref uri p.2.1 p.2.2))), ?_⟩
    simp [translatorDataset, hnc, hb]

/-- A plain gzip-compressed dataset with no other filter. -/
def plainGzipDS : HDS :=
  { name := "/p", zpath := "p", layout := .contiguous, scaleoffset := false,
    fletcher32 := false, shuffle := false, compression := some "gzip",
    shape := some [4], chunks := none, offset := some 0, storageSize := 16,
    rawChunks := [], isScale := false, dimScales := [[]] }

theorem unsupported_filters_behavior_witness :
    (filtersBad plainGzipDS = true →
      translatorDataset "u" false plainGzipDS [] [] =
        .error (plainGzipDS.name ++ " uses unsupported HDF5 filters")) ∧
    (filtersBad plainGzipDS = false → false = false →
      ∃ store', translatorDataset "u" false plainGzipDS [] [] = .ok store') :=
  unsupported_filters_behavior "u" false plainGzipDS [] [] (by decide)

/-! ## Claim C3 -/

theorem storageInfo_keys_nodup (ds : HDS) : (dkeys (storageInfo ds)).Nodup := by
  have hgen : ∀ (cs : List Nat) (l : List (List Nat × Nat × Nat))
      (acc : List (List Nat × (Nat × Nat))),
      (dkeys acc).Nodup →
      (dkeys (l.foldl (fun st rc =>
        dinsert (List.zipWith (· / ·) rc.1 cs) (rc.2.1, rc.2.2) st) acc)).Nodup := by
    intro cs l
    induction l with
    | nil => intro acc h; exact h
    | cons rc rest ih =>
      intro acc h
      simp only [List.foldl_cons]
      exact ih _ (dkeys_nodup_dinsert h)
  unfold storageInfo
  split
  · simp
  · split
    · split
      · simp
      · simp [dkeys]
    · exact hgen _ _ [] (by simp)

/-- C3: whenever the translator succeeds on a (non-compact) dataset, the
chunk entries it leaves in the store for that array are exactly one remote
reference `[uri, offset, size]` per (coordinate, offset, size) triple the
chunk locator reported — same count, pairwise distinct chunk coordinates,
and (granted the locator reports positive sizes) every entry has
offset ≥ 0 (it is a `Nat`) and size > 0. -/
theorem chunk_entries_exact (uri : String) (xr : Bool) (ds : HDS)
    (mdocs store store' : Store)
    (hnc : ds.layout ≠ Layout.compact)
    (hsz : ∀ p ∈ storageInfo ds, 0 < p.2.2)
    (hfresh : ∀ c, RefKey.chunk ds.zpath c ∉ dkeys store)
    (hmd : ∀ k ∈ dkeys mdocs, isChunkOf ds.zpath k = false)
    (hok : translatorDataset uri xr ds mdocs store = .ok store') :
    store'.filter (fun kv => isChunkOf ds.zpath kv.1) =
        (storageInfo ds).map
          (fun p => (RefKey.chunk ds.zpath p.1, RefValue.ref uri p.2.1 p.2.2)) ∧
    (store'.filter (fun kv => isChunkOf ds.zpath kv.1)).length =
        (storageInfo ds).length ∧
    (dkeys (store'.filter (fun kv => isChunkOf ds.zpath kv.1))).Nodup ∧
    (∀ kv ∈ store'.filter (fun kv => isChunkOf ds.zpath kv.1),
      ∃ c o s, kv = (RefKey.chunk ds.zpath c, RefValue.ref uri o s) ∧ 0 < s) := by
  have hnd_cinfo : (dkeys (storageInfo ds)).Nodup := storageInfo_keys_nodup ds
  simp only [translatorDataset] at hok
  rw [if_neg hnc] at hok
  by_cases hb : filtersBad ds = true
  · rw [if_pos hb] at hok
    cases hok
  · rw [if_neg hb] at hok
    by_cases hskip : (xr && ds.isScale && (storageInfo ds).isEmpty) = true
    · rw [if_pos hskip] at hok
      injection hok with hok
      subst hok
      have hempty : storageInfo ds = [] := by
        have := hskip
        simp only [Bool.and_eq_true] at this
        exact List.isEmpty_iff.1 this.2
      rw [hempty, filter_chunk_nil hfresh]
      simp
    · rw [if_neg hskip] at hok
      cases hdims : (if xr then (getArrayDims ds).map (fun _ => ()) else Except.ok ()) with
      | error e =>
        rw [hdims] at hok
        cases hok
      | ok u =>
        rw [hdims] at hok
        injection hok with hok
        subst hok
        have hbase : ∀ c, RefKey.chunk ds.zpath c ∉ dkeys (dupdate store mdocs) := by
          intro c hcmem
          rcases mem_dupdate_keys hcmem with h | h
          · exact hfresh c h
          · have := hmd _ h
            simp [isChunkOf] at this
        have hdkeys_map :
            dkeys ((storageInfo ds).map
              (fun p => (RefKey.chunk ds.zpath p.1, RefValue.ref uri p.2.1 p.2.2))) =
            (dkeys (storageInfo ds)).map (RefKey.chunk ds.zpath) := by
          simp [dkeys, List.map_map, Function.comp]
        have hndmap : (dkeys ((storageInfo ds).map
            (fun p => (RefKey.chunk ds.zpath p.1, RefValue.ref uri p.2.1 p.2.2)))).Nodup := by
          rw [hdkeys_map]
          exact hnd_cinfo.map (fun a b h => by injection h)
        have hfreshmap : ∀ x ∈ dkeys ((storageInfo ds).map
            (fun p => (RefKey.chunk ds.zpath p.1, RefValue.ref uri p.2.1 p.2.2))),
            x ∉ dkeys (dupdate store mdocs) := by
          intro x hx
          rw [hdkeys_map] at hx
          rcases List.mem_map.1 hx with ⟨c, hc, rfl⟩
          exact hbase c
        rw [dupdate_fresh hfreshmap hndmap, List.filter_append,
          filter_chunk_nil hbase, List.nil_append]
        have hfilmap : ((storageInfo ds).map
            (fun p => (RefKey.chunk ds.zpath p.1, RefValue.ref uri p.2.1 p.2.2))).filter
              (fun kv => isChunkOf ds.zpath kv.1) =
            (storageInfo ds).map
              (fun p => (RefKey.chunk ds.zpath p.1, RefValue.ref uri p.2.1 p.2.2)) := by
          apply List.filter_eq_self.2
          intro kv hkv
          rcases List.mem_map.1 hkv with ⟨p, hp, rfl⟩
          simp [isChunkOf]
        rw [hfilmap]
        refine ⟨rfl, by simp, hndmap, ?_⟩
        intro kv hkv
        rcases List.mem_map.1 hkv with ⟨p, hp, rfl⟩
        exact ⟨p.1, p.2.1, p.2.2, rfl, hsz p hp⟩

/-- A chunked dataset with two written chunks. -/
def twoChunkDS : HDS :=
  { name := "/d", zpath := "d", layout := .chunked, scaleoffset := false,
    fletcher32 := false, shuffle := false, compression := none,
    shape := some [10], chunks := some [5], offset := none, storageSize := 0,
    rawChunks := [([0], 100, 40), ([5], 140, 40)], isScale := false,
    dimScales := [[]] }

theorem chunk_entries_exact_witness :
    (let store' := [(RefKey.chunk "d" [0], RefValue.ref "u" 100 40),
                    (RefKey.chunk "d" [1], RefValue.ref "u" 140 40)]
     store'.filter (fun kv => isChunkOf twoChunkDS.zpath kv.1) =
        (storageInfo twoChunkDS).map
          (fun p => (RefKey.chunk twoChunkDS.zpath p.1, RefValue.ref "u" p.2.1 p.2.2)) ∧
     (store'.filter (fun kv => isChunkOf twoChunkDS.zpath kv.1)).length =
        (storageInfo twoChunkDS).length ∧
     (dkeys (store'.filter (fun kv => isChunkOf twoChunkDS.zpath kv.1))).Nodup ∧
     (∀ kv ∈ store'.filter (fun kv => isChunkOf twoChunkDS.zpath kv.1),
       ∃ c o s, kv = (RefKey.chunk twoChunkDS.zpath c, RefValue.ref "u" o s) ∧ 0 < s)) :=
  chunk_entries_exact "u" false twoChunkDS [] []
    [(RefKey.chunk "d" [0], RefValue.ref "u" 100 40),
     (RefKey.chunk "d" [1], RefValue.ref "u" 140 40)]
    (by decide) (by decide) (by intro c h; simp at h) (by intro k h; simp at h) rfl

/-! ## Claim C4 -/

/-- C4: evaluation of the dimension classifier at a collection with an
"extra" dimension `e` (present in the merged view, absent from the
representative source).  The claim (and the spec's precedence rule) says
`e` is classified extra; the code instead evaluates
`v / ds0.dims[k] == len(mappers)` for every merged dimension, so the
lookup of `e` in the representative map raises `KeyError` and the whole
consolidation aborts. -/
theorem determine_dims_keyerror_on_extra_dim :
    determineDims [("e", 2), ("x", 4)] [("x", 4)] 2 = .error "KeyError: e" := rfl

/-! ## Claim C8 -/

/-- A file whose bytes are the ASCII text `base64:aaaa`. -/
def taggedAsciiFile : List Nat := [98, 97, 115, 101, 54, 52, 58, 97, 97, 97, 97]

/-- C8 counterexample: inlining a chunk whose original bytes are the ASCII
text `base64:aaaa` stores them verbatim (ASCII branch), but the
tag-stripping decoder then base64-decodes `aaaa`, so decoding does not
reproduce the original byte range. -/
theorem inline_roundtrip_fails_on_tagged_ascii :
    dlookup (RefKey.chunk "x" [0])
        (do_inline taggedAsciiFile 12 [(RefKey.chunk "x" [0], RefValue.ref "u" 0 11)]) =
      some (.bytes (encodeInline (readRange taggedAsciiFile 0 11))) ∧
    decodeInline (encodeInline (readRange taggedAsciiFile 0 11)) ≠
      readRange taggedAsciiFile 0 11 := by
  constructor
  · rfl
  · decide

/-- C8 (amended): for every remote reference the Inliner replaces, if the
original byte range is not ASCII text that itself begins with the literal
tag `b"base64:"`, then the stored inline value decodes (directly as ASCII,
or by stripping the tag and base64-decoding) back to exactly the original
byte range. -/
theorem inliner_roundtrip (file : List Nat) (t : Nat) (st : Store) (k : RefKey)
    (u : String) (o s : Nat)
    (hfile : ∀ b ∈ file, b < 256)
    (hk : dlookup k st = some (.ref u o s)) (hs : s < t)
    (hn : ¬(isAscii (readRange file o s) = true ∧
            b64tag.isPrefixOf (readRange file o s) = true)) :
    dlookup k (do_inline file t st) = some (.bytes (encodeInline (readRange file o s))) ∧
    decodeInline (encodeInline (readRange file o s)) = readRange file o s := by
  constructor
  · rw [dlookup_do_inline, hk]
    simp [inlineVal, hs]
  · apply decodeInline_encodeInline _ _ hn
    intro b hb
    apply hfile
    exact List.mem_of_mem_drop (List.mem_of_mem_take hb)

theorem inliner_roundtrip_witness :
    dlookup (RefKey.chunk "x" [0])
        (do_inline [200] 2 [(RefKey.chunk "x" [0], RefValue.ref "u" 0 1)]) =
      some (.bytes (encodeInline (readRange [200] 0 1))) ∧
    decodeInline (encodeInline (readRange [200] 0 1)) = readRange [200] 0 1 :=
  inliner_roundtrip [200] 2 [(RefKey.chunk "x" [0], RefValue.ref "u" 0 1)]
    (RefKey.chunk "x" [0]) "u" 0 1 (by decide) rfl (by decide) (by decide)

/-! ## Claim C9 -/

/-- C9: the Inliner is idempotent — entries replaced on the first pass are
bytes, no longer of remote-reference shape, and are skipped on the second
pass; surviving references fail the same size test again. -/
theorem inliner_idempotent (file : List Nat) (t : Nat) (st : Store) :
    do_inline file t (do_inline file t st) = do_inline file t st := by
  induction st with
  | nil => rfl
  | cons kv rest ih =>
    simp only [do_inline, List.map_cons] at ih ⊢
    rw [inlineVal_idem, ih]

/-! ## Claim C10 -/

theorem gadAux_ok_length (isSc : Bool) (own : String) :
    ∀ scales l, gadAux isSc own scales = .ok l → l.length ≤ scales.length := by
  intro scales
  induction scales with
  | nil =>
    intro l h
    simp only [gadAux] at h
    injection h with h
    subst h
    simp
  | cons s rest ih =>
    intro l h
    simp only [gadAux] at h
    by_cases h1 : s.length = 1
    · rw [if_pos h1] at h
      cases hrec : gadAux isSc own rest with
      | error e => rw [hrec] at h; simp [Except.map] at h
      | ok t =>
        rw [hrec] at h
        simp only [Except.map] at h
        injection h with h
        subst h
        simpa using Nat.succ_le_succ (ih t hrec)
    · rw [if_neg h1] at h
      by_cases hsc : isSc
      · rw [if_pos hsc] at h
        cases hrec : gadAux isSc own rest with
        | error e => rw [hrec] at h; simp [Except.map] at h
        | ok t =>
          rw [hrec] at h
          simp only [Except.map] at h
          injection h with h
          subst h
          simpa using Nat.succ_le_succ (ih t hrec)
      · rw [if_neg hsc] at h
        by_cases hgt : s.length > 1
        · rw [if_pos hgt] at h
          cases h
        · rw [if_neg hgt] at h
          exact Nat.le_succ_of_le (ih l h)

theorem gadAux_no_scale (own : String) :
    ∀ scales : List (List String), (∀ s ∈ scales, s.length ≤ 1) →
      gadAux false own scales =
        .ok ((scales.filter (fun s => s.length == 1)).map (fun s => (s.headD "").drop 1)) := by
  intro scales
  induction scales with
  | nil => intro _; rfl
  | cons s rest ih =>
    intro h
    have hs : s.length ≤ 1 := h s (by simp)
    have hrest : ∀ x ∈ rest, x.length ≤ 1 := fun x hx => h x (by simp [hx])
    simp only [gadAux]
    by_cases h1 : s.length = 1
    · rw [if_pos h1, ih hrest]
      simp [Except.map, List.filter_cons, h1]
    · have h0 : ¬ s.length > 1 := by omega
      rw [if_neg h1, if_neg (by simp), if_neg h0, ih hrest]
      have : (s.length == 1) = false := by
        simp [Nat.beq_eq_true_eq] at *
        omega
      simp [List.filter_cons, this]

/-- C10: in dimension-aware mode the `_ARRAY_DIMENSIONS` list built by
`_get_array_dims` has at most rank-many entries; for a dataset that is not
itself a dimension scale, the list contains exactly one name per axis with
exactly one linked scale — an axis with zero linked scales contributes no
name at all and raises no error, so the list is silently shorter than the
rank. -/
theorem array_dims_list_shorter (ds : HDS)
    (hlen : ds.dimScales.length = dsRank ds) :
    (∀ l, getArrayDims ds = .ok l → l.length ≤ dsRank ds) ∧
    (ds.isScale = false → (∀ s ∈ ds.dimScales, s.length ≤ 1) →
      getArrayDims ds =
        .ok ((ds.dimScales.filter (fun s => s.length == 1)).map
          (fun s => (s.headD "").drop 1))) := by
  constructor
  · intro l h
    unfold getArrayDims at h
    by_cases h0 : dsRank ds = 0
    · rw [if_pos h0] at h
      injection h with h
      subst h
      simp [h0]
    · rw [if_neg h0] at h
      calc l.length ≤ ds.dimScales.length := gadAux_ok_length _ _ _ _ h
        _ = dsRank ds := hlen
  · intro hsc hone
    unfold getArrayDims
    by_cases h0 : dsRank ds = 0
    · rw [if_pos h0]
      have hnil : ds.dimScales = [] :=
        List.eq_nil_of_length_eq_zero (hlen.trans h0)
      rw [hnil]
      rfl
    · rw [if_neg h0, hsc]
      exact gadAux_no_scale _ _ hone

/-- A rank-2 dataset with one scale on axis 0 and none on axis 1. -/
def partialScaleDS : HDS :=
  { name := "/v", zpath := "v", layout := .chunked, scaleoffset := false,
    fletcher32 := false, shuffle := false, compression := none,
    shape := some [2, 3], chunks := some [1, 3], offset := none, storageSize := 0,
    rawChunks := [], isScale := false, dimScales := [["/x"], []] }

theorem array_dims_list_shorter_witness :
    (∀ l, getArrayDims partialScaleDS = .ok l → l.length ≤ dsRank partialScaleDS) ∧
    (partialScaleDS.isScale = false → (∀ s ∈ partialScaleDS.dimScales, s.length ≤ 1) →
      getArrayDims partialScaleDS =
        .ok ((partialScaleDS.dimScales.filter (fun s => s.length == 1)).map
          (fun s => (s.headD "").drop 1))) :=
  array_dims_list_shorter partialScaleDS (by decide)

end HdfRefs
